import Mathlib

/-!
# Scoutlist: verification of the playlist aggregation core

Shallow embedding of `scoutlist.py`. The Spotify API session is external
I/O: a playlist is modelled as the list of raw track items its paged
fetches produce, in fetch order. Timestamps are modelled as integers:
`dateutil.parser.parse` on the `added_at` string is an external library
call, so an item carries the parse outcome directly (`some t` for a
successful parse, `none` for a string the parser rejects, which makes the
Python code raise). Python's `set`/`frozenset` of `Track` objects hash and
compare by `(track_name, artist_ids)`, so sets of tracks are modelled as
`Finset` of that identity pair.
-/

namespace Scoutlist

/-- Identity of a track: the `(track_name, artist_ids)` pair used by
`Track.__key`, `Track.__eq__` and `Track.__hash__` in `scoutlist.py`. -/
abbrev Ident := String × Finset String

/-- The `item['track']` part of a raw API item: `id` (may be null for
local files), `name`, and the artist ids in fetch order. -/
structure RawTrack where
  track_id : Option String
  track_name : String
  artist_ids : List String
deriving DecidableEq

/-- One raw item of a playlist fetch. `added_at` is the outcome of
`dateutil.parser.parse(item['added_at'])`: `some t` for a parsable
timestamp, `none` when the parse raises. -/
structure RawItem where
  track : RawTrack
  added_at : Option Int
deriving DecidableEq

/-- The `Track` class: track data derived from a raw item. -/
structure Track where
  track_id : Option String
  track_name : String
  artist_ids : Finset String
deriving DecidableEq

/-- `Track.__init__`: reads `id`, `name`, and builds the `frozenset` of
artist ids. -/
def Track.ofRaw (r : RawTrack) : Track :=
  { track_id := r.track_id
    track_name := r.track_name
    artist_ids := r.artist_ids.toFinset }

/-- `Track.__key`: the identity used for equality and hashing. -/
def Track.ident (t : Track) : Ident := (t.track_name, t.artist_ids)

/-- Identity of the track carried by a raw item. -/
def RawItem.ident (it : RawItem) : Ident := (Track.ofRaw it.track).ident

/-- The `TrackAddedAt` class: a `Track` together with the parsed
`added_at` timestamp. -/
structure TrackAddedAt extends Track where
  added_at : Int
deriving DecidableEq

def TrackAddedAt.ident (t : TrackAddedAt) : Ident := t.toTrack.ident

/-- `tracks_iterator(sp_sess, playlist, added_at=False)`: builds a
`Track` from each item and yields it when its `track_id` is not `None`. -/
def tracks_iterator (pl : List RawItem) : List Track :=
  pl.filterMap fun it =>
    if (Track.ofRaw it.track).track_id ≠ none then some (Track.ofRaw it.track) else none

/-- The exceptions the aggregation can raise: a `dateutil` parse failure
on `added_at`, and the `IndexError` of `included_tracks[-1]` on an empty
list. -/
inductive AggError where
  | parseError
  | indexError
deriving DecidableEq

/-- `tracks_iterator(sp_sess, playlist, added_at=True)`: builds a
`TrackAddedAt` from each item — the constructor parses `added_at` first,
and a parse failure propagates — then yields it when its `track_id` is
not `None`. The value is the list of all yields, or the propagated
error. -/
def tracks_iterator_added_at : List RawItem → Except AggError (List TrackAddedAt)
  | [] => .ok []
  | it :: rest =>
    match it.added_at with
    | none => .error .parseError
    | some d =>
      if (Track.ofRaw it.track).track_id ≠ none then
        (tracks_iterator_added_at rest).map ((⟨Track.ofRaw it.track, d⟩ : TrackAddedAt) :: ·)
      else
        tracks_iterator_added_at rest

/-- `aggregate_excluded_tracks`: inserts the identity of every iterated
track of every exclude playlist into one set. -/
def aggregate_excluded_tracks (exclude_playlists : List (List RawItem)) : Finset Ident :=
  exclude_playlists.foldl
    (fun acc pl => (tracks_iterator pl).foldl (fun acc track => insert track.ident acc) acc)
    ∅

/-- The state threaded through `aggregate_source_tracks`: the mutable
`excluded_tracks` set and the `included_tracks` list. -/
structure AggState where
  excluded : Finset Ident
  included : List TrackAddedAt
deriving DecidableEq

/-- Stable insertion of `a` into a descending-sorted list: `a` is placed
before the first element `b` with `b.added_at ≤ a.added_at`, so an
element appearing earlier in the unsorted list stays first among equal
timestamps. -/
def insertDesc (a : TrackAddedAt) : List TrackAddedAt → List TrackAddedAt
  | [] => [a]
  | b :: l => if a.added_at < b.added_at then b :: insertDesc a l else a :: b :: l

/-- `sorted(l, reverse=True)` on `TrackAddedAt` values: Python's sort is
stable and compares with `TrackAddedAt.__lt__`, i.e. by `added_at` only;
a stable descending sort is extensionally unique, embedded here as
insertion sort. -/
def sortDesc : List TrackAddedAt → List TrackAddedAt
  | [] => []
  | x :: xs => insertDesc x (sortDesc xs)

/-- `if len(included_tracks) > output_len: included_tracks.pop()`: drop
the last element when the list exceeds the capacity. -/
def keepBounded (output_len : Nat) (l : List TrackAddedAt) : List TrackAddedAt :=
  if output_len < l.length then l.dropLast else l

/-- The body of the aggregation loop after the early short-circuit: skip
when the identity is already excluded, otherwise insert the identity into
`excluded_tracks`, append, re-sort descending, and pop the last element
when the list exceeds `output_len`. -/
def aggAccept (output_len : Nat) (s : AggState) (t : TrackAddedAt) : AggState :=
  if t.ident ∈ s.excluded then s
  else
    { excluded := insert t.ident s.excluded
      included := keepBounded output_len (sortDesc (s.included ++ [t])) }

/-- One iteration of the aggregation loop for a yielded track: the early
short-circuit `len(included_tracks) >= output_len and track.added_at <=
included_tracks[-1].added_at` (where `included_tracks[-1]` raises
`IndexError` on an empty list, reachable when `output_len = 0`), then the
exclusion check and acceptance. -/
def aggStep (output_len : Nat) (s : AggState) (t : TrackAddedAt) : Except AggError AggState :=
  if output_len ≤ s.included.length then
    match s.included.getLast? with
    | none => .error .indexError
    | some last =>
      if t.added_at ≤ last.added_at then .ok s
      else .ok (aggAccept output_len s t)
  else .ok (aggAccept output_len s t)

/-- Processing of one raw item pulled from `tracks_iterator(...,
added_at=True)` inside the aggregation loop: the `TrackAddedAt`
constructor parses `added_at` (failure propagates), the generator drops
the track when its id is `None`, otherwise the loop body runs. -/
def processItem (output_len : Nat) (s : AggState) (it : RawItem) : Except AggError AggState :=
  match it.added_at with
  | none => .error .parseError
  | some d =>
    if (Track.ofRaw it.track).track_id = none then .ok s
    else aggStep output_len s { toTrack := Track.ofRaw it.track, added_at := d }

/-- The inner loop of `aggregate_source_tracks` over one playlist. -/
def foldItems (output_len : Nat) (s : AggState) : List RawItem → Except AggError AggState
  | [] => .ok s
  | it :: rest =>
    match processItem output_len s it with
    | .error e => .error e
    | .ok s' => foldItems output_len s' rest

/-- The outer loop of `aggregate_source_tracks` over the source
playlists. -/
def foldPlaylists (output_len : Nat) (s : AggState) :
    List (List RawItem) → Except AggError AggState
  | [] => .ok s
  | pl :: rest =>
    match foldItems output_len s pl with
    | .error e => .error e
    | .ok s' => foldPlaylists output_len s' rest

/-- The final `included_tracks` list of `aggregate_source_tracks`, before
the track ids are extracted on the last line. -/
def aggregate_source_records (source_playlists : List (List RawItem))
    (excluded_tracks : Finset Ident) (output_len : Nat) :
    Except AggError (List TrackAddedAt) :=
  (foldPlaylists output_len ⟨excluded_tracks, []⟩ source_playlists).map (·.included)

/-- `aggregate_source_tracks`: the returned value is the list of track
ids of the final `included_tracks`. -/
def aggregate_source_tracks (source_playlists : List (List RawItem))
    (excluded_tracks : Finset Ident) (output_len : Nat) :
    Except AggError (List (Option String)) :=
  (aggregate_source_records source_playlists excluded_tracks output_len).map
    (List.map (·.track_id))

/-! ## Sorting lemmas -/

/-- Descending sortedness by `added_at`, the order maintained for
`included_tracks`. -/
def sortedDesc (l : List TrackAddedAt) : Prop :=
  l.Pairwise (fun a b => b.added_at ≤ a.added_at)

theorem insertDesc_perm (a : TrackAddedAt) (l : List TrackAddedAt) :
    (insertDesc a l).Perm (a :: l) := by
  induction l with
  | nil => exact List.Perm.refl _
  | cons b l ih =>
    simp only [insertDesc]
    split
    · exact (ih.cons b).trans (List.Perm.swap a b l)
    · exact List.Perm.refl _

theorem sortDesc_perm (l : List TrackAddedAt) : (sortDesc l).Perm l := by
  induction l with
  | nil => exact List.Perm.refl _
  | cons x xs ih => exact (insertDesc_perm x (sortDesc xs)).trans (ih.cons x)

theorem length_sortDesc (l : List TrackAddedAt) : (sortDesc l).length = l.length :=
  (sortDesc_perm l).length_eq

theorem mem_sortDesc {x : TrackAddedAt} {l : List TrackAddedAt} :
    x ∈ sortDesc l ↔ x ∈ l :=
  (sortDesc_perm l).mem_iff

theorem sortedDesc_insertDesc {a : TrackAddedAt} {l : List TrackAddedAt}
    (h : sortedDesc l) : sortedDesc (insertDesc a l) := by
  induction l with
  | nil => exact List.pairwise_singleton _ a
  | cons b l ih =>
    rcases List.pairwise_cons.mp h with ⟨hb, hl⟩
    simp only [insertDesc]
    split
    · rename_i hab
      refine List.pairwise_cons.mpr ⟨?_, ih hl⟩
      intro y hy
      rcases List.mem_cons.mp ((insertDesc_perm a l).mem_iff.mp hy) with rfl | hy
      · exact le_of_lt hab
      · exact hb y hy
    · rename_i hab
      refine List.pairwise_cons.mpr ⟨?_, h⟩
      intro y hy
      rcases List.mem_cons.mp hy with rfl | hy
      · exact le_of_not_lt hab
      · exact le_trans (hb y hy) (le_of_not_lt hab)

theorem sortedDesc_sortDesc (l : List TrackAddedAt) : sortedDesc (sortDesc l) := by
  induction l with
  | nil => exact List.Pairwise.nil
  | cons x xs ih => exact sortedDesc_insertDesc ih

theorem sortedDesc_dropLast {l : List TrackAddedAt} (h : sortedDesc l) :
    sortedDesc l.dropLast :=
  h.sublist (List.dropLast_sublist l)

/-- Stable insertion of a last-appended element: it goes after every
element with a greater-or-equal timestamp. -/
def insertLast (t : TrackAddedAt) : List TrackAddedAt → List TrackAddedAt
  | [] => [t]
  | x :: xs => if x.added_at < t.added_at then t :: x :: xs else x :: insertLast t xs

theorem insertDesc_of_ge {a : TrackAddedAt} {l : List TrackAddedAt}
    (h : ∀ y ∈ l, y.added_at ≤ a.added_at) : insertDesc a l = a :: l := by
  cases l with
  | nil => rfl
  | cons b l =>
    simp only [insertDesc, if_neg (not_lt.mpr (h b (List.mem_cons_self b l)))]

/-- On a descending-sorted list, a full re-sort of the list with one
element appended is exactly the stable insertion of that element. -/
theorem sortDesc_append_single {l : List TrackAddedAt} (t : TrackAddedAt)
    (h : sortedDesc l) : sortDesc (l ++ [t]) = insertLast t l := by
  induction l with
  | nil => rfl
  | cons x xs ih =>
    rcases List.pairwise_cons.mp h with ⟨hx, hxs⟩
    show insertDesc x (sortDesc (xs ++ [t])) = insertLast t (x :: xs)
    rw [ih hxs]
    by_cases hxt : x.added_at < t.added_at
    · rw [insertLast, if_pos hxt]
      cases xs with
      | nil =>
        show insertDesc x [t] = [t, x]
        rw [insertDesc, if_pos hxt]
        rfl
      | cons y ys =>
        have hy : y.added_at < t.added_at :=
          lt_of_le_of_lt (hx y (List.mem_cons_self y ys)) hxt
        rw [insertLast, if_pos hy, insertDesc, if_pos hxt, insertDesc_of_ge hx]
    · rw [insertLast, if_neg hxt]
      cases xs with
      | nil =>
        show insertDesc x [t] = [x, t]
        rw [insertDesc, if_neg hxt]
      | cons y ys =>
        rw [insertLast]
        by_cases hyt : y.added_at < t.added_at
        · rw [if_pos hyt]
          refine insertDesc_of_ge ?_
          intro z hz
          rcases List.mem_cons.mp hz with rfl | hz
          · exact le_of_not_lt hxt
          · exact hx z hz
        · rw [if_neg hyt, insertDesc,
            if_neg (not_lt.mpr (hx y (List.mem_cons_self y ys)))]

theorem insertLast_of_le {t : TrackAddedAt} {l : List TrackAddedAt}
    (h : ∀ y ∈ l, t.added_at ≤ y.added_at) : insertLast t l = l ++ [t] := by
  induction l with
  | nil => rfl
  | cons x xs ih =>
    rw [insertLast, if_neg (not_lt.mpr (h x (List.mem_cons_self x xs))),
      ih (fun y hy => h y (List.mem_cons.mpr (Or.inr hy))), List.cons_append]

/-- In a descending-sorted list, the last element has the minimum
timestamp. -/
theorem sortedDesc_getLast_le {l : List TrackAddedAt} {last : TrackAddedAt}
    (h : sortedDesc l) (hlast : l.getLast? = some last) :
    ∀ y ∈ l, last.added_at ≤ y.added_at := by
  induction l with
  | nil => simp at hlast
  | cons x xs ih =>
    rcases List.pairwise_cons.mp h with ⟨hx, hxs⟩
    cases xs with
    | nil =>
      have hxl : x = last := by simpa using hlast
      subst hxl
      intro y hy
      have hyx : y = x := by simpa using hy
      subst hyx
      exact le_refl _
    | cons z zs =>
      have hlast' : (z :: zs).getLast? = some last := by
        rw [← hlast, List.getLast?_cons_cons]
      intro y hy
      rcases List.mem_cons.mp hy with rfl | hy
      · exact le_trans (ih hxs hlast' z (List.mem_cons_self z zs))
          (hx z (List.mem_cons_self z zs))
      · exact ih hxs hlast' y hy

/-! ## Invariants of the aggregation state -/

/-- The invariant maintained by the aggregation loop, relative to the
exclusion seed the run started from and the capacity. -/
structure StateInv (seed : Finset Ident) (K : Nat) (s : AggState) : Prop where
  sorted : sortedDesc s.included
  len_le : s.included.length ≤ K
  seed_sub : seed ⊆ s.excluded
  mem_excl : ∀ t ∈ s.included, t.ident ∈ s.excluded
  distinct : s.included.Pairwise (fun a b => a.ident ≠ b.ident)
  not_seed : ∀ t ∈ s.included, t.ident ∉ seed

theorem stateInv_init (seed : Finset Ident) (K : Nat) :
    StateInv seed K ⟨seed, []⟩ :=
  ⟨List.Pairwise.nil, Nat.zero_le K, Finset.Subset.refl seed,
    fun t ht => absurd ht (List.not_mem_nil t),
    List.Pairwise.nil, fun t ht => absurd ht (List.not_mem_nil t)⟩

theorem stateInv_aggAccept {seed : Finset Ident} {K : Nat} {s : AggState}
    {t : TrackAddedAt} (h : StateInv seed K s) : StateInv seed K (aggAccept K s t) := by
  unfold aggAccept
  split
  · exact h
  · rename_i hni
    have hperm : (sortDesc (s.included ++ [t])).Perm (s.included ++ [t]) := sortDesc_perm _
    have hsorted : sortedDesc (sortDesc (s.included ++ [t])) := sortedDesc_sortDesc _
    have hlen : (sortDesc (s.included ++ [t])).length = s.included.length + 1 := by
      rw [hperm.length_eq, List.length_append, List.length_cons, List.length_nil]
    have hmem : ∀ x ∈ sortDesc (s.included ++ [t]), x ∈ s.included ∨ x = t := by
      intro x hx
      rcases List.mem_append.mp (hperm.mem_iff.mp hx) with h1 | h1
      · exact Or.inl h1
      · right; simpa using h1
    have hdist : (sortDesc (s.included ++ [t])).Pairwise (fun a b => a.ident ≠ b.ident) := by
      refine (hperm.pairwise_iff fun hab => ?_).mpr ?_
      · exact fun he => hab he.symm
      · refine List.pairwise_append.mpr ⟨h.distinct, List.pairwise_singleton _ _, ?_⟩
        intro a ha b hb
        have hb' : b = t := by simpa using hb
        subst hb'
        intro he
        exact hni (he ▸ h.mem_excl a ha)
    have hmem' : ∀ x ∈ sortDesc (s.included ++ [t]), x.ident ∈ insert t.ident s.excluded := by
      intro x hx
      rcases hmem x hx with h1 | rfl
      · exact Finset.mem_insert_of_mem (h.mem_excl x h1)
      · exact Finset.mem_insert_self _ _
    have hns : ∀ x ∈ sortDesc (s.included ++ [t]), x.ident ∉ seed := by
      intro x hx
      rcases hmem x hx with h1 | rfl
      · exact h.not_seed x h1
      · exact fun hs => hni (h.seed_sub hs)
    constructor
    case sorted =>
      dsimp only [keepBounded]
      split
      · exact sortedDesc_dropLast hsorted
      · exact hsorted
    case len_le =>
      dsimp only [keepBounded]
      split
      · rw [List.length_dropLast, hlen]
        simpa using h.len_le
      · rename_i hKlt
        exact le_of_not_lt hKlt
    case seed_sub =>
      exact h.seed_sub.trans (Finset.subset_insert _ _)
    case mem_excl =>
      dsimp only [keepBounded]
      split
      · exact fun x hx => hmem' x ((List.dropLast_sublist _).subset hx)
      · exact hmem'
    case distinct =>
      dsimp only [keepBounded]
      split
      · exact hdist.sublist (List.dropLast_sublist _)
      · exact hdist
    case not_seed =>
      dsimp only [keepBounded]
      split
      · exact fun x hx => hns x ((List.dropLast_sublist _).subset hx)
      · exact hns

theorem aggAccept_excl_sub (K : Nat) (s : AggState) (t : TrackAddedAt) :
    s.excluded ⊆ (aggAccept K s t).excluded := by
  unfold aggAccept
  split
  · exact Finset.Subset.refl _
  · exact Finset.subset_insert _ _

theorem stateInv_aggStep {seed : Finset Ident} {K : Nat} {s s' : AggState}
    {t : TrackAddedAt} (h : StateInv seed K s) (hstep : aggStep K s t = .ok s') :
    StateInv seed K s' := by
  unfold aggStep at hstep
  split at hstep
  · split at hstep
    · cases hstep
    · split at hstep
      · cases hstep; exact h
      · cases hstep; exact stateInv_aggAccept h
  · cases hstep; exact stateInv_aggAccept h

theorem aggStep_excl_sub {K : Nat} {s s' : AggState} {t : TrackAddedAt}
    (hstep : aggStep K s t = .ok s') : s.excluded ⊆ s'.excluded := by
  unfold aggStep at hstep
  split at hstep
  · split at hstep
    · cases hstep
    · split at hstep
      · cases hstep; exact Finset.Subset.refl _
      · cases hstep; exact aggAccept_excl_sub _ _ _
  · cases hstep; exact aggAccept_excl_sub _ _ _

theorem stateInv_processItem {seed : Finset Ident} {K : Nat} {s s' : AggState}
    {it : RawItem} (h : StateInv seed K s) (hstep : processItem K s it = .ok s') :
    StateInv seed K s' := by
  unfold processItem at hstep
  split at hstep
  · cases hstep
  · split at hstep
    · cases hstep; exact h
    · exact stateInv_aggStep h hstep

theorem processItem_excl_sub {K : Nat} {s s' : AggState} {it : RawItem}
    (hstep : processItem K s it = .ok s') : s.excluded ⊆ s'.excluded := by
  unfold processItem at hstep
  split at hstep
  · cases hstep
  · split at hstep
    · cases hstep; exact Finset.Subset.refl _
    · exact aggStep_excl_sub hstep

theorem stateInv_foldItems {seed : Finset Ident} {K : Nat} {s s' : AggState}
    {l : List RawItem} (h : StateInv seed K s) (hfold : foldItems K s l = .ok s') :
    StateInv seed K s' := by
  induction l generalizing s with
  | nil => cases hfold; exact h
  | cons it rest ih =>
    unfold foldItems at hfold
    split at hfold
    · cases hfold
    · rename_i s₁ hs₁
      exact ih (stateInv_processItem h hs₁) hfold

theorem foldItems_excl_sub {K : Nat} {s s' : AggState} {l : List RawItem}
    (hfold : foldItems K s l = .ok s') : s.excluded ⊆ s'.excluded := by
  induction l generalizing s with
  | nil => cases hfold; exact Finset.Subset.refl _
  | cons it rest ih =>
    unfold foldItems at hfold
    split at hfold
    · cases hfold
    · rename_i s₁ hs₁
      exact (processItem_excl_sub hs₁).trans (ih hfold)

theorem stateInv_foldPlaylists {seed : Finset Ident} {K : Nat} {s s' : AggState}
    {pls : List (List RawItem)} (h : StateInv seed K s)
    (hfold : foldPlaylists K s pls = .ok s') : StateInv seed K s' := by
  induction pls generalizing s with
  | nil => cases hfold; exact h
  | cons pl rest ih =>
    unfold foldPlaylists at hfold
    split at hfold
    · cases hfold
    · rename_i s₁ hs₁
      exact ih (stateInv_foldItems h hs₁) hfold

theorem foldPlaylists_excl_sub {K : Nat} {s s' : AggState} {pls : List (List RawItem)}
    (hfold : foldPlaylists K s pls = .ok s') : s.excluded ⊆ s'.excluded := by
  induction pls generalizing s with
  | nil => cases hfold; exact Finset.Subset.refl _
  | cons pl rest ih =>
    unfold foldPlaylists at hfold
    split at hfold
    · cases hfold
    · rename_i s₁ hs₁
      exact (foldItems_excl_sub hs₁).trans (ih hfold)

/-- The invariant holding on the run's final `included_tracks`. -/
theorem stateInv_run {pls : List (List RawItem)} {seed : Finset Ident} {K : Nat}
    {out : List TrackAddedAt}
    (h : aggregate_source_records pls seed K = .ok out) :
    ∃ s' : AggState, foldPlaylists K ⟨seed, []⟩ pls = .ok s' ∧ s'.included = out ∧
      StateInv seed K s' := by
  unfold aggregate_source_records at h
  cases hfold : foldPlaylists K ⟨seed, []⟩ pls with
  | error e => rw [hfold] at h; cases h
  | ok s' =>
    rw [hfold] at h
    refine ⟨s', rfl, ?_, stateInv_foldPlaylists (stateInv_init seed K) hfold⟩
    have h' : (Except.ok s'.included : Except AggError (List TrackAddedAt)) = .ok out := h
    exact Except.ok.inj h'

/-- The playlist-by-playlist loop is the same run as one pass over the
concatenation of the playlists' item streams. -/
theorem foldItems_append (K : Nat) (s : AggState) (l₁ l₂ : List RawItem) :
    foldItems K s (l₁ ++ l₂) =
      match foldItems K s l₁ with
      | .ok s' => foldItems K s' l₂
      | .error e => .error e := by
  induction l₁ generalizing s with
  | nil => rfl
  | cons it rest ih =>
    simp only [List.cons_append, foldItems]
    cases processItem K s it with
    | error e => rfl
    | ok s' => exact ih s'

theorem foldPlaylists_eq_flatten (K : Nat) (s : AggState) (pls : List (List RawItem)) :
    foldPlaylists K s pls = foldItems K s pls.flatten := by
  induction pls generalizing s with
  | nil => rfl
  | cons pl rest ih =>
    rw [List.flatten_cons, foldItems_append]
    unfold foldPlaylists
    cases foldItems K s pl with
    | error e => rfl
    | ok s' => exact ih s'

-- sanity checks on concrete runs (spec scenarios A and C)
def itemOf (id nm : String) (a : String) (d : Int) : RawItem :=
  { track := { track_id := some id, track_name := nm, artist_ids := [a] }, added_at := some d }

example :
    aggregate_source_tracks
      [[itemOf "i1" "T1" "a" 1, itemOf "i2" "T2" "a" 3, itemOf "i3" "T3" "a" 2]] ∅ 2 =
      .ok [some "i2", some "i3"] := rfl

example :
    aggregate_source_tracks [[itemOf "i1" "Told" "a" 1], [itemOf "i2" "Tnew" "b" 5]] ∅ 1 =
      .ok [some "i2"] := rfl

example : aggregate_source_tracks [[itemOf "i1" "T1" "a" 1]] ∅ 0 = .error .indexError := rfl

/-! ## C1: capacity bound -/

/-- C1 (as stated, refuted): at `capacity = 0` the returned sequence is
not always empty — with a single parsable track the early short-circuit
condition `len(included_tracks) >= 0` is true on the empty list, so
`included_tracks[-1]` raises `IndexError` and no list is returned at
all. -/
theorem C1_capacity_zero_raises :
    aggregate_source_tracks [[itemOf "i1" "T1" "a" 1]] ∅ 0 = .error .indexError := rfl

/-- C1 (amended): whenever `aggregate_source_tracks` returns a list, its
length is at most `K` (so a successfully returned list at `K = 0` is
empty); but at `K = 0` a run that processes any parsable track raises
`IndexError` instead of returning the empty sequence. -/
theorem C1_capacity_bound (pls : List (List RawItem)) (seed : Finset Ident) (K : Nat)
    (out : List (Option String)) (h : aggregate_source_tracks pls seed K = .ok out) :
    out.length ≤ K := by
  unfold aggregate_source_tracks at h
  cases hr : aggregate_source_records pls seed K with
  | error e => rw [hr] at h; cases h
  | ok recs =>
    rw [hr] at h
    have h' : (Except.ok (recs.map (·.track_id)) : Except AggError (List (Option String))) =
        .ok out := h
    obtain ⟨s', _, hinc, hinv⟩ := stateInv_run hr
    rw [← Except.ok.inj h', List.length_map, ← hinc]
    exact hinv.len_le

theorem C1_capacity_bound_witness :
    aggregate_source_tracks [[itemOf "i1" "T1" "a" 1]] ∅ 2 = .ok [some "i1"] ∧
      ([some "i1"] : List (Option String)).length ≤ 2 :=
  ⟨rfl, C1_capacity_bound [[itemOf "i1" "T1" "a" 1]] ∅ 2 [some "i1"] rfl⟩

/-! ## C3: uniqueness and freshness of the output -/

/-- C3: in any successful run, no two elements of the final
`included_tracks` share an identity, and no element's identity belongs to
the exclusion set as it was seeded when the aggregation began. -/
theorem C3_uniqueness (pls : List (List RawItem)) (seed : Finset Ident) (K : Nat)
    (out : List TrackAddedAt) (h : aggregate_source_records pls seed K = .ok out) :
    out.Pairwise (fun a b => a.ident ≠ b.ident) ∧ ∀ t ∈ out, t.ident ∉ seed := by
  obtain ⟨s', _, hinc, hinv⟩ := stateInv_run h
  subst hinc
  exact ⟨hinv.distinct, hinv.not_seed⟩

theorem C3_uniqueness_witness :
    aggregate_source_records [[itemOf "i1" "T1" "a" 1, itemOf "i2" "T1" "b" 2]] ∅ 2 =
      .ok [⟨⟨some "i2", "T1", ["b"].toFinset⟩, 2⟩, ⟨⟨some "i1", "T1", ["a"].toFinset⟩, 1⟩] ∧
    ([⟨⟨some "i2", "T1", ["b"].toFinset⟩, 2⟩,
      (⟨⟨some "i1", "T1", ["a"].toFinset⟩, 1⟩ : TrackAddedAt)]).Pairwise
        (fun a b => a.ident ≠ b.ident) :=
  ⟨rfl,
    (C3_uniqueness [[itemOf "i1" "T1" "a" 1, itemOf "i2" "T1" "b" 2]] ∅ 2 _ rfl).1⟩

/-! ## C4: output sorted by descending added_at -/

/-- C4: any successfully returned sequence is non-increasing in
`added_at`: for output positions `i < j` the element at `i` has
`added_at` greater than or equal to the one at `j` (and the returned id
list of `aggregate_source_tracks` is the image of this record list). -/
theorem C4_descending (pls : List (List RawItem)) (seed : Finset Ident) (K : Nat)
    (out : List TrackAddedAt) (h : aggregate_source_records pls seed K = .ok out) :
    out.Pairwise (fun a b => b.added_at ≤ a.added_at) ∧
      aggregate_source_tracks pls seed K = .ok (out.map (·.track_id)) := by
  obtain ⟨s', _, hinc, hinv⟩ := stateInv_run h
  subst hinc
  refine ⟨hinv.sorted, ?_⟩
  unfold aggregate_source_tracks
  rw [h]
  rfl

theorem C4_descending_witness :
    aggregate_source_records [[itemOf "i1" "T1" "a" 1, itemOf "i2" "T2" "a" 3]] ∅ 2 =
      .ok [⟨⟨some "i2", "T2", ["a"].toFinset⟩, 3⟩, ⟨⟨some "i1", "T1", ["a"].toFinset⟩, 1⟩] ∧
    ([⟨⟨some "i2", "T2", ["a"].toFinset⟩, 3⟩,
      (⟨⟨some "i1", "T1", ["a"].toFinset⟩, 1⟩ : TrackAddedAt)]).Pairwise
        (fun a b => b.added_at ≤ a.added_at) :=
  ⟨rfl,
    (C4_descending [[itemOf "i1" "T1" "a" 1, itemOf "i2" "T2" "a" 3]] ∅ 2 _ rfl).1⟩

/-! ## C8: a timestamp parse failure aborts the aggregation -/

theorem foldItems_error_of_unparsable {K : Nat} {s : AggState} {l : List RawItem}
    (h : ∃ it ∈ l, it.added_at = none) : ∃ e, foldItems K s l = .error e := by
  induction l generalizing s with
  | nil =>
    rcases h with ⟨it, hit, _⟩
    simp at hit
  | cons it rest ih =>
    rcases h with ⟨bad, hbad, hnone⟩
    cases hp : processItem K s it with
    | error e =>
      refine ⟨e, ?_⟩
      unfold foldItems
      rw [hp]
    | ok s' =>
      rcases List.mem_cons.mp hbad with rfl | hmem
      · exfalso
        rw [show processItem K s bad = .error .parseError from by
          unfold processItem; rw [hnone]] at hp
        cases hp
      · obtain ⟨e, he⟩ := @ih s' ⟨bad, hmem, hnone⟩
        refine ⟨e, ?_⟩
        unfold foldItems
        rw [hp]
        exact he

/-- C8: when any item whose `added_at` fails to parse occurs anywhere in
the source streams, the whole aggregation returns an error and produces
no result list. -/
theorem C8_parse_failure_aborts (pls : List (List RawItem)) (seed : Finset Ident)
    (K : Nat) (h : ∃ it ∈ pls.flatten, it.added_at = none) :
    ∃ e, aggregate_source_tracks pls seed K = .error e := by
  obtain ⟨e, he⟩ := @foldItems_error_of_unparsable K ⟨seed, []⟩ pls.flatten h
  refine ⟨e, ?_⟩
  unfold aggregate_source_tracks aggregate_source_records
  rw [foldPlaylists_eq_flatten, he]
  rfl

theorem C8_parse_failure_aborts_witness :
    ∃ e, aggregate_source_tracks
      [[itemOf "i1" "T1" "a" 5,
        { track := { track_id := some "i2", track_name := "T2", artist_ids := ["a"] },
          added_at := none }]] ∅ 3 = .error e :=
  C8_parse_failure_aborts _ ∅ 3
    ⟨{ track := { track_id := some "i2", track_name := "T2", artist_ids := ["a"] },
       added_at := none }, by simp, rfl⟩

/-! ## C9: the exclusion set does not depend on playlist order -/

theorem mem_foldl_insert {l : List Track} {acc : Finset Ident} {x : Ident} :
    x ∈ l.foldl (fun acc track => insert track.ident acc) acc ↔
      x ∈ acc ∨ ∃ t ∈ l, t.ident = x := by
  induction l generalizing acc with
  | nil => simp
  | cons t rest ih =>
    rw [List.foldl_cons, ih]
    simp only [Finset.mem_insert, List.mem_cons]
    constructor
    · rintro (⟨h | h⟩ | ⟨u, hu, hx⟩)
      · exact Or.inr ⟨t, Or.inl rfl, h.symm⟩
      · exact Or.inl h
      · exact Or.inr ⟨u, Or.inr hu, hx⟩
    · rintro (h | ⟨u, hu | hu, hx⟩)
      · exact Or.inl (Or.inr h)
      · subst hu; exact Or.inl (Or.inl hx.symm)
      · exact Or.inr ⟨u, hu, hx⟩

theorem mem_aggregate_excluded {pls : List (List RawItem)} {x : Ident} :
    x ∈ aggregate_excluded_tracks pls ↔
      ∃ pl ∈ pls, ∃ t ∈ tracks_iterator pl, t.ident = x := by
  have main : ∀ (pls : List (List RawItem)) (acc : Finset Ident),
      x ∈ pls.foldl
        (fun acc pl => (tracks_iterator pl).foldl (fun acc track => insert track.ident acc) acc)
        acc ↔
      x ∈ acc ∨ ∃ pl ∈ pls, ∃ t ∈ tracks_iterator pl, t.ident = x := by
    intro pls
    induction pls with
    | nil => simp
    | cons pl rest ih =>
      intro acc
      rw [List.foldl_cons, ih, mem_foldl_insert]
      simp only [List.mem_cons]
      constructor
      · rintro (⟨h | ⟨t, ht, hx⟩⟩ | ⟨q, hq, t, ht, hx⟩)
        · exact Or.inl h
        · exact Or.inr ⟨pl, Or.inl rfl, t, ht, hx⟩
        · exact Or.inr ⟨q, Or.inr hq, t, ht, hx⟩
      · rintro (h | ⟨q, hq | hq, t, ht, hx⟩)
        · exact Or.inl (Or.inl h)
        · subst hq; exact Or.inl (Or.inr ⟨t, ht, hx⟩)
        · exact Or.inr ⟨q, hq, t, ht, hx⟩
  unfold aggregate_excluded_tracks
  rw [main]
  simp

/-- C9: the set built by `aggregate_excluded_tracks` is invariant under
permutation of the exclude-playlist list. -/
theorem C9_order_invariance (pls₁ pls₂ : List (List RawItem))
    (hperm : pls₁.Perm pls₂) :
    aggregate_excluded_tracks pls₁ = aggregate_excluded_tracks pls₂ := by
  ext x
  rw [mem_aggregate_excluded, mem_aggregate_excluded]
  constructor
  · rintro ⟨pl, hpl, t, ht, hx⟩
    exact ⟨pl, hperm.mem_iff.mp hpl, t, ht, hx⟩
  · rintro ⟨pl, hpl, t, ht, hx⟩
    exact ⟨pl, hperm.mem_iff.mpr hpl, t, ht, hx⟩

theorem C9_order_invariance_witness :
    aggregate_excluded_tracks [[itemOf "i1" "X" "a" 1], [itemOf "i2" "Y" "b" 2]] =
      aggregate_excluded_tracks [[itemOf "i2" "Y" "b" 2], [itemOf "i1" "X" "a" 1]] :=
  C9_order_invariance _ _
    (List.Perm.swap [itemOf "i2" "Y" "b" 2] [itemOf "i1" "X" "a" 1] [])

/-! ## C10: the first accepted occurrence of an identity wins -/

theorem processItem_some {K : Nat} {s : AggState} {it : RawItem} {d : Int}
    (hd : it.added_at = some d) :
    processItem K s it =
      if (Track.ofRaw it.track).track_id = none then .ok s
      else aggStep K s ⟨Track.ofRaw it.track, d⟩ := by
  unfold processItem
  rw [hd]

/-- A track whose identity is already excluded leaves the state as it is
(or, with an empty kept list at capacity zero, raises `IndexError`). -/
theorem aggStep_skip {K : Nat} {s : AggState} {t : TrackAddedAt}
    (hmem : t.ident ∈ s.excluded) :
    aggStep K s t = .ok s ∨ aggStep K s t = .error .indexError := by
  unfold aggStep
  by_cases hK : K ≤ s.included.length
  · rw [if_pos hK]
    cases hl : s.included.getLast? with
    | none => exact Or.inr rfl
    | some last =>
      dsimp only
      by_cases hle : t.added_at ≤ last.added_at
      · rw [if_pos hle]
        exact Or.inl rfl
      · rw [if_neg hle]
        left
        unfold aggAccept
        rw [if_pos hmem]
  · rw [if_neg hK]
    left
    unfold aggAccept
    rw [if_pos hmem]

/-- C10: (1) a track whose identity is already in the exclusion set never
changes the state — it is skipped (by the short-circuit or the identity
check) regardless of how recent its `added_at` is, the only other
possibility being the capacity-zero `IndexError`; (2) accepting a track
inserts its identity into the exclusion set; (3) the exclusion set only
ever grows over a run. Together: once an identity's first occurrence is
accepted, every later occurrence is skipped, so an output element carries
the `added_at` of the first accepted occurrence of its identity. -/
theorem C10_first_occurrence_wins :
    (∀ (K : Nat) (s : AggState) (it : RawItem) (d : Int), it.added_at = some d →
      it.ident ∈ s.excluded →
      processItem K s it = .ok s ∨ processItem K s it = .error .indexError) ∧
    (∀ (K : Nat) (s : AggState) (t : TrackAddedAt), t.ident ∉ s.excluded →
      (aggAccept K s t).excluded = insert t.ident s.excluded) ∧
    (∀ (K : Nat) (s s' : AggState) (pls : List (List RawItem)),
      foldPlaylists K s pls = .ok s' → s.excluded ⊆ s'.excluded) := by
  refine ⟨?_, ?_, fun K s s' pls h => foldPlaylists_excl_sub h⟩
  · intro K s it d hd hmem
    rw [processItem_some hd]
    by_cases hid : (Track.ofRaw it.track).track_id = none
    · rw [if_pos hid]
      exact Or.inl rfl
    · rw [if_neg hid]
      exact aggStep_skip hmem
  · intro K s t hni
    unfold aggAccept
    rw [if_neg hni]

theorem C10_first_occurrence_wins_witness :
    processItem 3 ⟨{("T1", ["a"].toFinset)}, []⟩ (itemOf "i9" "T1" "a" 99) =
      .ok ⟨{("T1", ["a"].toFinset)}, []⟩ ∨
    processItem 3 ⟨{("T1", ["a"].toFinset)}, []⟩ (itemOf "i9" "T1" "a" 99) =
      .error .indexError :=
  C10_first_occurrence_wins.1 3 ⟨{("T1", ["a"].toFinset)}, []⟩
    (itemOf "i9" "T1" "a" 99) 99 rfl (by decide)

/-! ## C7: silent dropping of records with a null track id -/

/-- C7 (as stated, refuted): a raw record with null `track_id` is not
always silently dropped — in the `added_at=True` path the
`TrackAddedAt` constructor parses `added_at` before the id check, so a
null-id record whose timestamp fails to parse makes the aggregation
raise instead of skipping it. -/
theorem C7_null_id_can_raise :
    aggregate_source_tracks
      [[{ track := { track_id := none, track_name := "L", artist_ids := ["a"] },
          added_at := none }]] ∅ 5 = .error .parseError := rfl

theorem tracks_iterator_id_ne_none {pl : List RawItem} :
    ∀ t ∈ tracks_iterator pl, t.track_id ≠ none := by
  intro t ht
  rcases List.mem_filterMap.mp ht with ⟨it, hit, hf⟩
  by_cases h : (Track.ofRaw it.track).track_id = none
  · rw [if_neg fun hcon => hcon h] at hf
    cases hf
  · rw [if_pos h] at hf
    rw [← Option.some.inj hf]
    exact h

theorem tracks_iterator_added_at_id_ne_none :
    ∀ (pl : List RawItem) (l : List TrackAddedAt), tracks_iterator_added_at pl = .ok l →
      ∀ t ∈ l, t.track_id ≠ none := by
  intro pl
  induction pl with
  | nil =>
    intro l h
    cases h
    simp
  | cons it rest ih =>
    intro l h
    unfold tracks_iterator_added_at at h
    split at h
    · cases h
    · rename_i d hd
      split at h
      · rename_i hid
        cases hr : tracks_iterator_added_at rest with
        | error e => rw [hr] at h; cases h
        | ok l' =>
          rw [hr] at h
          have h' : ((⟨Track.ofRaw it.track, d⟩ : TrackAddedAt) :: l') = l := Except.ok.inj h
          subst h'
          intro t ht
          rcases List.mem_cons.mp ht with rfl | ht
          · exact hid
          · exact ih l' hr t ht
      · exact ih l h

theorem tracks_iterator_cons_none {it : RawItem} (h : it.track.track_id = none)
    (l : List RawItem) : tracks_iterator (it :: l) = tracks_iterator l := by
  unfold tracks_iterator
  rw [List.filterMap_cons,
    if_neg (show ¬((Track.ofRaw it.track).track_id ≠ none) from fun hcon => hcon h)]

theorem tracks_iterator_cons_some {it : RawItem} (h : it.track.track_id ≠ none)
    (l : List RawItem) :
    tracks_iterator (it :: l) = Track.ofRaw it.track :: tracks_iterator l := by
  unfold tracks_iterator
  rw [List.filterMap_cons, if_pos (show (Track.ofRaw it.track).track_id ≠ none from h)]

theorem tracks_iterator_filter_nonnull (pl : List RawItem) :
    tracks_iterator (pl.filter fun it => decide (it.track.track_id ≠ none)) =
      tracks_iterator pl := by
  induction pl with
  | nil => rfl
  | cons it rest ih =>
    rw [List.filter_cons]
    by_cases h : it.track.track_id = none
    · rw [if_neg (by simp [h]), tracks_iterator_cons_none h, ih]
    · rw [if_pos (by simp [h]), tracks_iterator_cons_some h, tracks_iterator_cons_some h, ih]

theorem aggregate_excluded_filter_nonnull (pls : List (List RawItem)) :
    aggregate_excluded_tracks
        (pls.map (List.filter fun it => decide (it.track.track_id ≠ none))) =
      aggregate_excluded_tracks pls := by
  ext x
  rw [mem_aggregate_excluded, mem_aggregate_excluded]
  constructor
  · rintro ⟨pl, hpl, t, ht, hx⟩
    rcases List.mem_map.mp hpl with ⟨q, hq, rfl⟩
    rw [tracks_iterator_filter_nonnull] at ht
    exact ⟨q, hq, t, ht, hx⟩
  · rintro ⟨pl, hpl, t, ht, hx⟩
    refine ⟨_, List.mem_map_of_mem _ hpl, t, ?_, hx⟩
    rwa [tracks_iterator_filter_nonnull]

theorem foldItems_filter_dropped (K : Nat) (s : AggState) (l : List RawItem) :
    foldItems K s
        (l.filter fun it => decide (¬(it.track.track_id = none ∧ it.added_at ≠ none))) =
      foldItems K s l := by
  induction l generalizing s with
  | nil => rfl
  | cons it rest ih =>
    rw [List.filter_cons]
    by_cases h : it.track.track_id = none ∧ it.added_at ≠ none
    · rw [if_neg (by simp [h.1, h.2])]
      have hp : processItem K s it = .ok s := by
        rcases h with ⟨hid, hsome⟩
        cases hd : it.added_at with
        | none => exact absurd hd hsome
        | some d =>
          rw [processItem_some hd,
            if_pos (show (Track.ofRaw it.track).track_id = none from hid)]
      have hfold : foldItems K s (it :: rest) = foldItems K s rest := by
        show (match processItem K s it with
          | .error e => .error e
          | .ok s' => foldItems K s' rest) = foldItems K s rest
        rw [hp]
      rw [hfold]
      exact ih s
    · rw [if_pos (decide_eq_true h)]
      show (match processItem K s it with
        | Except.error e => Except.error e
        | Except.ok s' => foldItems K s'
            (rest.filter fun it => decide (¬(it.track.track_id = none ∧ it.added_at ≠ none)))) =
        (match processItem K s it with
        | Except.error e => Except.error e
        | Except.ok s' => foldItems K s' rest)
      cases processItem K s it with
      | error e => rfl
      | ok s' => exact ih s'

theorem foldPlaylists_filter_dropped (K : Nat) (s : AggState) (pls : List (List RawItem)) :
    foldPlaylists K s
        (pls.map (List.filter fun it => decide (¬(it.track.track_id = none ∧ it.added_at ≠ none)))) =
      foldPlaylists K s pls := by
  induction pls generalizing s with
  | nil => rfl
  | cons pl rest ih =>
    rw [List.map_cons]
    unfold foldPlaylists
    rw [foldItems_filter_dropped]
    cases foldItems K s pl with
    | error e => rfl
    | ok s' => exact ih s'

/-- C7 (amended): a raw record with null track id and parsable `added_at`
is silently dropped everywhere — every track yielded by either mode of
`tracks_iterator` has a non-null id, and removing such records from the
inputs changes neither `aggregate_excluded_tracks` nor
`aggregate_source_tracks`; but a null-id record whose `added_at` fails to
parse aborts the `added_at=True` iteration (construction precedes the id
check), as the counterexample shows. -/
theorem C7_null_id_dropped :
    (∀ (pl : List RawItem), ∀ t ∈ tracks_iterator pl, t.track_id ≠ none) ∧
    (∀ (pl : List RawItem) (l : List TrackAddedAt), tracks_iterator_added_at pl = .ok l →
      ∀ t ∈ l, t.track_id ≠ none) ∧
    (∀ pls : List (List RawItem),
      aggregate_excluded_tracks
          (pls.map (List.filter fun it => decide (it.track.track_id ≠ none))) =
        aggregate_excluded_tracks pls) ∧
    (∀ (pls : List (List RawItem)) (seed : Finset Ident) (K : Nat),
      aggregate_source_tracks
          (pls.map (List.filter fun it => decide (¬(it.track.track_id = none ∧ it.added_at ≠ none))))
          seed K =
        aggregate_source_tracks pls seed K) := by
  refine ⟨fun pl => tracks_iterator_id_ne_none, tracks_iterator_added_at_id_ne_none,
    aggregate_excluded_filter_nonnull, ?_⟩
  intro pls seed K
  unfold aggregate_source_tracks aggregate_source_records
  rw [foldPlaylists_filter_dropped]

theorem C7_null_id_dropped_witness :
    (∀ t ∈ [(⟨⟨some "i1", "T1", ["a"].toFinset⟩, 1⟩ : TrackAddedAt)], t.track_id ≠ none) ∧
    aggregate_source_tracks
        [List.filter (fun it => decide (¬(it.track.track_id = none ∧ it.added_at ≠ none)))
          [{ track := { track_id := none, track_name := "L", artist_ids := ["a"] },
             added_at := some 9 },
           itemOf "i1" "T1" "a" 1]] ∅ 5 =
      aggregate_source_tracks
        [[{ track := { track_id := none, track_name := "L", artist_ids := ["a"] },
            added_at := some 9 },
          itemOf "i1" "T1" "a" 1]] ∅ 5 :=
  ⟨C7_null_id_dropped.2.1
      [{ track := { track_id := none, track_name := "L", artist_ids := ["a"] },
         added_at := some 9 },
       itemOf "i1" "T1" "a" 1] _ rfl,
    C7_null_id_dropped.2.2.2
      [[{ track := { track_id := none, track_name := "L", artist_ids := ["a"] },
          added_at := some 9 },
        itemOf "i1" "T1" "a" 1]] ∅ 5⟩

/-! ## C5: re-aggregation with the output pre-seeded -/

/-- C5 (as stated, refuted): with capacity 1 and stream A(t=5), B(t=10),
the first run accepts A, then accepts B and evicts A, so the output is
[B]; re-running with the exclusion set pre-seeded with the first output's
identities ({B}) re-selects the evicted A, so the second run is not
empty. -/
theorem C5_reaggregation_not_empty :
    aggregate_source_records [[itemOf "iA" "A" "a" 5, itemOf "iB" "B" "b" 10]] ∅ 1 =
      .ok [⟨⟨some "iB", "B", ["b"].toFinset⟩, 10⟩] ∧
    aggregate_source_tracks [[itemOf "iA" "A" "a" 5, itemOf "iB" "B" "b" 10]]
        (∅ ∪ (([⟨⟨some "iB", "B", ["b"].toFinset⟩, 10⟩] : List TrackAddedAt).map
          TrackAddedAt.ident).toFinset) 1 =
      .ok [some "iA"] :=
  ⟨rfl, rfl⟩

theorem aggStep_not_full {K : Nat} {s : AggState} {t : TrackAddedAt}
    (h : s.included.length < K) : aggStep K s t = .ok (aggAccept K s t) := by
  unfold aggStep
  rw [if_neg (not_le.mpr h)]

theorem foldItems_cons_ok {K : Nat} {s s' : AggState} {it : RawItem} {rest : List RawItem}
    (h : foldItems K s (it :: rest) = .ok s') :
    ∃ s₁, processItem K s it = .ok s₁ ∧ foldItems K s₁ rest = .ok s' := by
  have h' : (match processItem K s it with
      | Except.error e => Except.error e
      | Except.ok s₁ => foldItems K s₁ rest) = Except.ok s' := h
  revert h'
  cases hp : processItem K s it with
  | error e => intro h'; cases h'
  | ok s₁ => intro h'; exact ⟨s₁, rfl, h'⟩

/-- When the capacity is at least the number of remaining items plus the
kept list, the run never short-circuits or evicts: the exclusion set
stays exactly the seed plus the kept identities, every item parses, and
every valid item's identity ends up excluded. -/
theorem foldItems_no_pressure {seed : Finset Ident} {K : Nat} {items : List RawItem} :
    ∀ {s s' : AggState},
      foldItems K s items = .ok s' →
      s.included.length + items.length ≤ K →
      s.excluded = seed ∪ (s.included.map TrackAddedAt.ident).toFinset →
      (s'.excluded = seed ∪ (s'.included.map TrackAddedAt.ident).toFinset ∧
        ∀ it ∈ items, it.added_at ≠ none ∧
          (it.track.track_id ≠ none → RawItem.ident it ∈ s'.excluded)) := by
  induction items with
  | nil =>
    intro s s' hfold _ hexcl
    cases hfold
    exact ⟨hexcl, by simp⟩
  | cons it rest ih =>
    intro s s' hfold hlen hexcl
    obtain ⟨s₁, hp, hrest⟩ := foldItems_cons_ok hfold
    cases hd : it.added_at with
    | none =>
      rw [show processItem K s it = .error .parseError from by
        unfold processItem; rw [hd]] at hp
      cases hp
    | some d =>
      rw [processItem_some hd] at hp
      have hlen' : s.included.length + rest.length + 1 ≤ K := by
        simp only [List.length_cons] at hlen
        omega
      by_cases hid : (Track.ofRaw it.track).track_id = none
      · rw [if_pos hid] at hp
        have hs₁ : s₁ = s := (Except.ok.inj hp).symm
        subst hs₁
        obtain ⟨hA, hB⟩ := ih hrest (by omega) hexcl
        refine ⟨hA, ?_⟩
        intro it' hit'
        rcases List.mem_cons.mp hit' with rfl | hit'
        · exact ⟨by simp [hd], fun hval => absurd hid hval⟩
        · exact hB it' hit'
      · rw [if_neg hid, aggStep_not_full (by omega)] at hp
        have hs₁ : aggAccept K s ⟨Track.ofRaw it.track, d⟩ = s₁ := Except.ok.inj hp
        by_cases hmem :
            (⟨Track.ofRaw it.track, d⟩ : TrackAddedAt).ident ∈ s.excluded
        · have hskip : s₁ = s := by
            rw [← hs₁]
            unfold aggAccept
            rw [if_pos hmem]
          subst hskip
          obtain ⟨hA, hB⟩ := ih hrest (by omega) hexcl
          refine ⟨hA, ?_⟩
          intro it' hit'
          rcases List.mem_cons.mp hit' with rfl | hit'
          · exact ⟨by simp [hd], fun _ => foldItems_excl_sub hrest hmem⟩
          · exact hB it' hit'
        · have hacc : s₁ = ⟨insert (⟨Track.ofRaw it.track, d⟩ : TrackAddedAt).ident s.excluded,
              sortDesc (s.included ++ [⟨Track.ofRaw it.track, d⟩])⟩ := by
            rw [← hs₁]
            unfold aggAccept
            rw [if_neg hmem]
            unfold keepBounded
            have hnl : ¬ (K < (sortDesc (s.included ++ [⟨Track.ofRaw it.track, d⟩])).length) := by
              rw [length_sortDesc, List.length_append]
              simp only [List.length_cons, List.length_nil]
              omega
            rw [if_neg hnl]
          have hexcl₁ : s₁.excluded = seed ∪ (s₁.included.map TrackAddedAt.ident).toFinset := by
            rw [hacc]
            dsimp only
            have hpm : ((sortDesc (s.included ++ [(⟨Track.ofRaw it.track, d⟩ : TrackAddedAt)])).map
                TrackAddedAt.ident).Perm
                ((s.included.map TrackAddedAt.ident) ++
                  [(⟨Track.ofRaw it.track, d⟩ : TrackAddedAt).ident]) := by
              have hbase :=
                (sortDesc_perm (s.included ++ [(⟨Track.ofRaw it.track, d⟩ : TrackAddedAt)])).map
                  TrackAddedAt.ident
              simpa using hbase
            ext x
            simp only [hexcl, Finset.mem_insert, Finset.mem_union, List.mem_toFinset,
              hpm.mem_iff, List.mem_append, List.mem_singleton]
            tauto
          have hlen₁ : s₁.included.length + rest.length ≤ K := by
            rw [hacc]
            dsimp only
            rw [length_sortDesc, List.length_append]
            simp only [List.length_cons, List.length_nil]
            omega
          obtain ⟨hA, hB⟩ := ih hrest hlen₁ hexcl₁
          refine ⟨hA, ?_⟩
          intro it' hit'
          rcases List.mem_cons.mp hit' with rfl | hit'
          · refine ⟨by simp [hd], fun _ => ?_⟩
            have hin₁ : RawItem.ident it' ∈ s₁.excluded := by
              rw [hacc]
              exact Finset.mem_insert_self _ _
            exact foldItems_excl_sub hrest hin₁
          · exact hB it' hit'

/-- With an empty kept list and every valid item's identity already in
the exclusion set, a run accepts nothing and leaves the state
untouched. -/
theorem foldItems_all_excluded {K : Nat} {seed2 : Finset Ident} {items : List RawItem}
    (hK : items.length ≤ K)
    (hall : ∀ it ∈ items, it.added_at ≠ none ∧
      (it.track.track_id ≠ none → RawItem.ident it ∈ seed2)) :
    foldItems K ⟨seed2, []⟩ items = .ok ⟨seed2, []⟩ := by
  induction items with
  | nil => rfl
  | cons it rest ih =>
    obtain ⟨hdne, hmemc⟩ := hall it (List.mem_cons_self it rest)
    cases hd : it.added_at with
    | none => exact absurd hd hdne
    | some d =>
      have hKpos : 0 < K := by
        simp only [List.length_cons] at hK
        omega
      have hp : processItem K ⟨seed2, []⟩ it = .ok ⟨seed2, []⟩ := by
        rw [processItem_some hd]
        by_cases hid : (Track.ofRaw it.track).track_id = none
        · rw [if_pos hid]
        · rw [if_neg hid, aggStep_not_full (by simpa using hKpos)]
          unfold aggAccept
          rw [if_pos (show (⟨Track.ofRaw it.track, d⟩ : TrackAddedAt).ident ∈
            (AggState.mk seed2 []).excluded from hmemc hid)]
      show (match processItem K ⟨seed2, []⟩ it with
        | Except.error e => Except.error e
        | Except.ok s' => foldItems K s' rest) = .ok ⟨seed2, []⟩
      rw [hp]
      exact ih (by simp only [List.length_cons] at hK; omega)
        (fun it' h' => hall it' (List.mem_cons.mpr (Or.inr h')))

/-- C5 (amended): re-running the aggregation on the same sources and
capacity with the exclusion set pre-seeded with the identities of the
first run's output yields an empty result provided the capacity is at
least the total number of items in the source streams (so the first run
never evicts or short-circuits); in general an evicted or
short-circuited track can be re-selected by the second run, as the
counterexample shows. -/
theorem C5_reaggregation_empty (pls : List (List RawItem)) (seed : Finset Ident)
    (K : Nat) (out : List TrackAddedAt)
    (hK : pls.flatten.length ≤ K)
    (h : aggregate_source_records pls seed K = .ok out) :
    aggregate_source_records pls (seed ∪ (out.map TrackAddedAt.ident).toFinset) K =
      .ok [] := by
  obtain ⟨s', hfold, hinc, _⟩ := stateInv_run h
  rw [foldPlaylists_eq_flatten] at hfold
  have hbase : (AggState.mk seed ([] : List TrackAddedAt)).excluded =
      seed ∪ ((AggState.mk seed ([] : List TrackAddedAt)).included.map
        TrackAddedAt.ident).toFinset := by
    simp
  obtain ⟨hA, hB⟩ := foldItems_no_pressure hfold (by simpa using hK) hbase
  unfold aggregate_source_records
  rw [foldPlaylists_eq_flatten]
  have hrun2 : foldItems K ⟨seed ∪ (out.map TrackAddedAt.ident).toFinset, []⟩ pls.flatten =
      .ok ⟨seed ∪ (out.map TrackAddedAt.ident).toFinset, []⟩ := by
    apply foldItems_all_excluded hK
    intro it hit
    obtain ⟨h1, h2⟩ := hB it hit
    refine ⟨h1, fun hval => ?_⟩
    have hm := h2 hval
    rw [hA, hinc] at hm
    exact hm
  rw [hrun2]
  rfl

theorem C5_reaggregation_empty_witness :
    aggregate_source_records [[itemOf "iA" "A" "a" 5, itemOf "iB" "B" "b" 10]]
      (∅ ∪ (([⟨⟨some "iB", "B", ["b"].toFinset⟩, 10⟩,
              ⟨⟨some "iA", "A", ["a"].toFinset⟩, 5⟩] : List TrackAddedAt).map
        TrackAddedAt.ident).toFinset) 2 = .ok [] :=
  C5_reaggregation_empty [[itemOf "iA" "A" "a" 5, itemOf "iB" "B" "b" 10]] ∅ 2
    [⟨⟨some "iB", "B", ["b"].toFinset⟩, 10⟩, ⟨⟨some "iA", "A", ["a"].toFinset⟩, 5⟩]
    (by decide) rfl

/-! ## C2: the early short-circuit and the variant without it -/

/-- Modelled from the spec: "running the aggregation with this check
removed" — one loop iteration with lines 207-209 of `scoutlist.py` (the
early short-circuit) deleted, the rest identical to `processItem`. -/
def processItem_nocheck (output_len : Nat) (s : AggState) (it : RawItem) :
    Except AggError AggState :=
  match it.added_at with
  | none => .error .parseError
  | some d =>
    if (Track.ofRaw it.track).track_id = none then .ok s
    else .ok (aggAccept output_len s { toTrack := Track.ofRaw it.track, added_at := d })

def foldItems_nocheck (output_len : Nat) (s : AggState) :
    List RawItem → Except AggError AggState
  | [] => .ok s
  | it :: rest =>
    match processItem_nocheck output_len s it with
    | .error e => .error e
    | .ok s' => foldItems_nocheck output_len s' rest

def foldPlaylists_nocheck (output_len : Nat) (s : AggState) :
    List (List RawItem) → Except AggError AggState
  | [] => .ok s
  | pl :: rest =>
    match foldItems_nocheck output_len s pl with
    | .error e => .error e
    | .ok s' => foldPlaylists_nocheck output_len s' rest

/-- The aggregation with the early short-circuit removed. -/
def aggregate_source_tracks_nocheck (source_playlists : List (List RawItem))
    (excluded_tracks : Finset Ident) (output_len : Nat) :
    Except AggError (List (Option String)) :=
  ((foldPlaylists_nocheck output_len ⟨excluded_tracks, []⟩ source_playlists).map
    (·.included)).map (List.map (·.track_id))

/-- C2 (as stated, refuted): removing the short-circuit changes the
output. With capacity 1 and stream A(t=10), B(t=5), B'(t=20) (B and B'
share an identity), the original short-circuits B, so B' is later
accepted and wins; without the check B is accepted, immediately evicted,
but its identity poisons the exclusion set, so B' is skipped and A wins.
And with capacity 0 the original raises `IndexError` while the variant
returns the empty list. -/
theorem C2_shortcircuit_changes_output :
    aggregate_source_tracks
        [[itemOf "iA" "A" "a" 10, itemOf "iB1" "B" "b" 5, itemOf "iB2" "B" "b" 20]] ∅ 1 =
      .ok [some "iB2"] ∧
    aggregate_source_tracks_nocheck
        [[itemOf "iA" "A" "a" 10, itemOf "iB1" "B" "b" 5, itemOf "iB2" "B" "b" 20]] ∅ 1 =
      .ok [some "iA"] ∧
    aggregate_source_tracks [[itemOf "iA" "A" "a" 10]] ∅ 0 = .error .indexError ∧
    aggregate_source_tracks_nocheck [[itemOf "iA" "A" "a" 10]] ∅ 0 = .ok [] :=
  ⟨rfl, rfl, rfl, rfl⟩

theorem processItem_nocheck_some {K : Nat} {s : AggState} {it : RawItem} {d : Int}
    (hd : it.added_at = some d) :
    processItem_nocheck K s it =
      if (Track.ofRaw it.track).track_id = none then .ok s
      else .ok (aggAccept K s ⟨Track.ofRaw it.track, d⟩) := by
  unfold processItem_nocheck
  rw [hd]

theorem foldItems_cons_step {K : Nat} {s s₁ : AggState} {it : RawItem}
    {rest : List RawItem} (hp : processItem K s it = .ok s₁) :
    foldItems K s (it :: rest) = foldItems K s₁ rest := by
  show (match processItem K s it with
    | Except.error e => Except.error e
    | Except.ok s' => foldItems K s' rest) = foldItems K s₁ rest
  rw [hp]

theorem foldItems_nocheck_cons_step {K : Nat} {s s₁ : AggState} {it : RawItem}
    {rest : List RawItem} (hp : processItem_nocheck K s it = .ok s₁) :
    foldItems_nocheck K s (it :: rest) = foldItems_nocheck K s₁ rest := by
  show (match processItem_nocheck K s it with
    | Except.error e => Except.error e
    | Except.ok s' => foldItems_nocheck K s' rest) = foldItems_nocheck K s₁ rest
  rw [hp]

/-- Agreement of two run results: same error, or same final
`included_tracks`. -/
def agreeInc : Except AggError AggState → Except AggError AggState → Prop :=
  fun x y =>
    match x, y with
    | .error e₁, .error e₂ => e₁ = e₂
    | .ok s₁, .ok s₂ => s₁.included = s₂.included
    | _, _ => False

theorem sortedDesc_keepBounded {K : Nat} {l : List TrackAddedAt}
    (h : sortedDesc l) : sortedDesc (keepBounded K l) := by
  unfold keepBounded
  split
  · exact sortedDesc_dropLast h
  · exact h

/-- Core of the C2 amendment: with capacity at least 1 and pairwise
distinct identities in the remaining stream, the checked and unchecked
runs keep identical `included_tracks` at every step (the exclusion sets
may differ, but only in identities that never recur). -/
theorem foldItems_nocheck_agree {K : Nat} (hK : 1 ≤ K) :
    ∀ (items : List RawItem) (sA sB : AggState),
      (items.map RawItem.ident).Pairwise (· ≠ ·) →
      sA.included = sB.included →
      sortedDesc sA.included →
      sA.excluded ⊆ sB.excluded →
      (∀ it ∈ items, RawItem.ident it ∈ sB.excluded → RawItem.ident it ∈ sA.excluded) →
      agreeInc (foldItems K sA items) (foldItems_nocheck K sB items) := by
  intro items
  induction items with
  | nil =>
    intro sA sB _ hinc _ _ _
    exact hinc
  | cons it rest ih =>
    intro sA sB hdist hinc hsort hsub hall
    simp only [List.map_cons] at hdist
    rcases List.pairwise_cons.mp hdist with ⟨hhead, htail⟩
    cases hd : it.added_at with
    | none =>
      have hA : foldItems K sA (it :: rest) = .error .parseError := by
        show (match processItem K sA it with
          | Except.error e => Except.error e
          | Except.ok s' => foldItems K s' rest) = .error .parseError
        rw [show processItem K sA it = .error .parseError from by
          unfold processItem; rw [hd]]
      have hB : foldItems_nocheck K sB (it :: rest) = .error .parseError := by
        show (match processItem_nocheck K sB it with
          | Except.error e => Except.error e
          | Except.ok s' => foldItems_nocheck K s' rest) = .error .parseError
        rw [show processItem_nocheck K sB it = .error .parseError from by
          unfold processItem_nocheck; rw [hd]]
      rw [hA, hB]
      exact rfl
    | some d =>
      have htailall : ∀ it' ∈ rest, RawItem.ident it' ∈ sB.excluded →
          RawItem.ident it' ∈ sA.excluded :=
        fun it' h' => hall it' (List.mem_cons.mpr (Or.inr h'))
      by_cases hid : (Track.ofRaw it.track).track_id = none
      · have hpA : processItem K sA it = .ok sA := by
          rw [processItem_some hd, if_pos hid]
        have hpB : processItem_nocheck K sB it = .ok sB := by
          rw [processItem_nocheck_some hd, if_pos hid]
        rw [foldItems_cons_step hpA, foldItems_nocheck_cons_step hpB]
        exact ih sA sB htail hinc hsort hsub htailall
      · have hpB : processItem_nocheck K sB it =
            .ok (aggAccept K sB ⟨Track.ofRaw it.track, d⟩) := by
          rw [processItem_nocheck_some hd, if_neg hid]
        rw [foldItems_nocheck_cons_step hpB]
        by_cases hmemA : (⟨Track.ofRaw it.track, d⟩ : TrackAddedAt).ident ∈ sA.excluded
        · -- identity already excluded on the A side, hence on both sides:
          -- both runs skip (on the A side possibly via the short-circuit,
          -- with the same resulting state either way)
          have hmemB : (⟨Track.ofRaw it.track, d⟩ : TrackAddedAt).ident ∈ sB.excluded :=
            hsub hmemA
          have haB : aggAccept K sB ⟨Track.ofRaw it.track, d⟩ = sB := by
            unfold aggAccept
            rw [if_pos hmemB]
          have hpA : processItem K sA it = .ok sA := by
            rw [processItem_some hd, if_neg hid]
            rcases @aggStep_skip K sA ⟨Track.ofRaw it.track, d⟩ hmemA with h | h
            · exact h
            · exfalso
              revert h
              unfold aggStep
              by_cases hfull : K ≤ sA.included.length
              · rw [if_pos hfull]
                cases hl : sA.included.getLast? with
                | none =>
                  have hnil : sA.included = [] := by
                    cases hI : sA.included with
                    | nil => rfl
                    | cons a as => rw [hI] at hl; simp [List.getLast?] at hl
                  rw [hnil] at hfull
                  simp at hfull
                  omega
                | some last =>
                  dsimp only
                  split
                  · exact fun h => by cases h
                  · exact fun h => by cases h
              · rw [if_neg hfull]
                exact fun h => by cases h
          rw [foldItems_cons_step hpA, haB]
          exact ih sA sB htail hinc hsort hsub htailall
        · -- identity fresh on the A side
          have hmemB : (⟨Track.ofRaw it.track, d⟩ : TrackAddedAt).ident ∉ sB.excluded :=
            fun hmem => hmemA (hall it (List.mem_cons_self it rest) hmem)
          have hallnext : ∀ it' ∈ rest,
              RawItem.ident it' ∈
                insert (⟨Track.ofRaw it.track, d⟩ : TrackAddedAt).ident sB.excluded →
              RawItem.ident it' ∈
                insert (⟨Track.ofRaw it.track, d⟩ : TrackAddedAt).ident sA.excluded := by
            intro it' h' hmem'
            rcases Finset.mem_insert.mp hmem' with heq | hmem''
            · exact Finset.mem_insert.mpr (Or.inl heq)
            · exact Finset.mem_insert.mpr (Or.inr (htailall it' h' hmem''))
          have hfresh : ∀ it' ∈ rest, RawItem.ident it' ∈
              insert (⟨Track.ofRaw it.track, d⟩ : TrackAddedAt).ident sB.excluded →
              RawItem.ident it' ∈ sA.excluded ∨ RawItem.ident it' =
                (⟨Track.ofRaw it.track, d⟩ : TrackAddedAt).ident := by
            intro it' h' hmem'
            rcases Finset.mem_insert.mp hmem' with heq | hmem''
            · exact Or.inr heq
            · exact Or.inl (htailall it' h' hmem'')
          by_cases hfull : K ≤ sA.included.length
          · -- kept list full: get its last (minimum) element
            cases hl : sA.included.getLast? with
            | none =>
              exfalso
              have hnil : sA.included = [] := by
                cases hI : sA.included with
                | nil => rfl
                | cons a as => rw [hI] at hl; simp [List.getLast?] at hl
              rw [hnil] at hfull
              simp at hfull
              omega
            | some last =>
              by_cases hle :
                  (⟨Track.ofRaw it.track, d⟩ : TrackAddedAt).added_at ≤ last.added_at
              · -- A short-circuits; B accepts the track but immediately
                -- evicts it, leaving only a bigger exclusion set — and the
                -- poisoned identity never recurs
                have hpA : processItem K sA it = .ok sA := by
                  rw [processItem_some hd, if_neg hid]
                  unfold aggStep
                  rw [if_pos hfull, hl]
                  dsimp only
                  rw [if_pos hle]
                have hElems : ∀ y ∈ sB.included,
                    (⟨Track.ofRaw it.track, d⟩ : TrackAddedAt).added_at ≤ y.added_at := by
                  rw [← hinc]
                  exact fun y hy =>
                    le_trans hle (sortedDesc_getLast_le hsort hl y hy)
                have hsortB : sortedDesc sB.included := hinc ▸ hsort
                have haB : aggAccept K sB ⟨Track.ofRaw it.track, d⟩ =
                    ⟨insert (⟨Track.ofRaw it.track, d⟩ : TrackAddedAt).ident sB.excluded,
                      sB.included⟩ := by
                  unfold aggAccept
                  rw [if_neg hmemB]
                  have hSD : sortDesc (sB.included ++ [⟨Track.ofRaw it.track, d⟩]) =
                      sB.included ++ [⟨Track.ofRaw it.track, d⟩] := by
                    rw [sortDesc_append_single _ hsortB, insertLast_of_le hElems]
                  rw [hSD]
                  unfold keepBounded
                  have hKlt : K < (sB.included ++
                      [(⟨Track.ofRaw it.track, d⟩ : TrackAddedAt)]).length := by
                    rw [List.length_append, ← hinc]
                    simp only [List.length_cons, List.length_nil]
                    omega
                  rw [if_pos hKlt]
                  simp
                rw [foldItems_cons_step hpA, haB]
                refine ih sA ⟨insert (⟨Track.ofRaw it.track, d⟩ : TrackAddedAt).ident
                    sB.excluded, sB.included⟩ htail hinc hsort
                  (hsub.trans (Finset.subset_insert _ _)) ?_
                intro it' h' hmem'
                rcases hfresh it' h' hmem' with h'' | h''
                · exact h''
                · exfalso
                  exact hhead (RawItem.ident it') (List.mem_map_of_mem _ h') h''.symm
              · -- A also accepts: both sides accept the same track onto the
                -- same kept list
                have hpA : processItem K sA it =
                    .ok (aggAccept K sA ⟨Track.ofRaw it.track, d⟩) := by
                  rw [processItem_some hd, if_neg hid]
                  unfold aggStep
                  rw [if_pos hfull, hl]
                  dsimp only
                  rw [if_neg hle]
                have haA : aggAccept K sA ⟨Track.ofRaw it.track, d⟩ =
                    ⟨insert (⟨Track.ofRaw it.track, d⟩ : TrackAddedAt).ident sA.excluded,
                      keepBounded K (sortDesc (sA.included ++ [⟨Track.ofRaw it.track, d⟩]))⟩ := by
                  unfold aggAccept
                  rw [if_neg hmemA]
                have haB : aggAccept K sB ⟨Track.ofRaw it.track, d⟩ =
                    ⟨insert (⟨Track.ofRaw it.track, d⟩ : TrackAddedAt).ident sB.excluded,
                      keepBounded K (sortDesc (sA.included ++ [⟨Track.ofRaw it.track, d⟩]))⟩ := by
                  unfold aggAccept
                  rw [if_neg hmemB, ← hinc]
                rw [foldItems_cons_step hpA, haA, haB]
                refine ih _ _ htail rfl
                  (sortedDesc_keepBounded (sortedDesc_sortDesc _))
                  (Finset.insert_subset_insert _ hsub) hallnext
          · -- kept list below capacity: both sides accept
            have hpA : processItem K sA it =
                .ok (aggAccept K sA ⟨Track.ofRaw it.track, d⟩) := by
              rw [processItem_some hd, if_neg hid, aggStep_not_full (not_le.mp hfull)]
            have haA : aggAccept K sA ⟨Track.ofRaw it.track, d⟩ =
                ⟨insert (⟨Track.ofRaw it.track, d⟩ : TrackAddedAt).ident sA.excluded,
                  keepBounded K (sortDesc (sA.included ++ [⟨Track.ofRaw it.track, d⟩]))⟩ := by
              unfold aggAccept
              rw [if_neg hmemA]
            have haB : aggAccept K sB ⟨Track.ofRaw it.track, d⟩ =
                ⟨insert (⟨Track.ofRaw it.track, d⟩ : TrackAddedAt).ident sB.excluded,
                  keepBounded K (sortDesc (sA.included ++ [⟨Track.ofRaw it.track, d⟩]))⟩ := by
              unfold aggAccept
              rw [if_neg hmemB, ← hinc]
            rw [foldItems_cons_step hpA, haA, haB]
            refine ih _ _ htail rfl
              (sortedDesc_keepBounded (sortedDesc_sortDesc _))
              (Finset.insert_subset_insert _ hsub) hallnext

theorem foldItems_nocheck_append (K : Nat) (s : AggState) (l₁ l₂ : List RawItem) :
    foldItems_nocheck K s (l₁ ++ l₂) =
      match foldItems_nocheck K s l₁ with
      | .ok s' => foldItems_nocheck K s' l₂
      | .error e => .error e := by
  induction l₁ generalizing s with
  | nil => rfl
  | cons it rest ih =>
    simp only [List.cons_append, foldItems_nocheck]
    cases processItem_nocheck K s it with
    | error e => rfl
    | ok s' => exact ih s'

theorem foldPlaylists_nocheck_eq_flatten (K : Nat) (s : AggState)
    (pls : List (List RawItem)) :
    foldPlaylists_nocheck K s pls = foldItems_nocheck K s pls.flatten := by
  induction pls generalizing s with
  | nil => rfl
  | cons pl rest ih =>
    rw [List.flatten_cons, foldItems_nocheck_append]
    unfold foldPlaylists_nocheck
    cases foldItems_nocheck K s pl with
    | error e => rfl
    | ok s' => exact ih s'

/-- C2 (amended): the early short-circuit cannot be removed in general —
without it a skipped track's identity is inserted into the exclusion set
even though the track is immediately evicted, which blocks later, more
recent occurrences of the same identity, and at capacity 0 the check is
what raises `IndexError` (see the counterexample). It is a pure
optimization whenever the capacity is at least 1 and no identity occurs
twice across the source streams: then both runs return exactly the same
output. -/
theorem C2_shortcircuit_equivalence (pls : List (List RawItem)) (seed : Finset Ident)
    (K : Nat) (hK : 1 ≤ K)
    (hdist : (pls.flatten.map RawItem.ident).Pairwise (· ≠ ·)) :
    aggregate_source_tracks_nocheck pls seed K = aggregate_source_tracks pls seed K := by
  have hagree := foldItems_nocheck_agree hK pls.flatten ⟨seed, []⟩ ⟨seed, []⟩ hdist rfl
    List.Pairwise.nil (Finset.Subset.refl seed) (fun _ _ h => h)
  unfold aggregate_source_tracks_nocheck aggregate_source_tracks aggregate_source_records
  rw [foldPlaylists_eq_flatten, foldPlaylists_nocheck_eq_flatten]
  revert hagree
  cases foldItems K ⟨seed, []⟩ pls.flatten with
  | error e =>
    cases foldItems_nocheck K ⟨seed, []⟩ pls.flatten with
    | error e' =>
      intro hagree
      have he : e' = e := (show e = e' from hagree).symm
      rw [he]
    | ok sB => intro hagree; cases hagree
  | ok sA =>
    cases foldItems_nocheck K ⟨seed, []⟩ pls.flatten with
    | error e' => intro hagree; cases hagree
    | ok sB =>
      intro hagree
      have hinc : sB.included = sA.included := (show sA.included = sB.included from hagree).symm
      show Except.ok (sB.included.map (·.track_id)) = Except.ok (sA.included.map (·.track_id))
      rw [hinc]

theorem C2_shortcircuit_equivalence_witness :
    aggregate_source_tracks_nocheck [[itemOf "iA" "A" "a" 10]] ∅ 1 =
      aggregate_source_tracks [[itemOf "iA" "A" "a" 10]] ∅ 1 :=
  C2_shortcircuit_equivalence [[itemOf "iA" "A" "a" 10]] ∅ 1 (by decide) (by simp)

/-! ## C6: tie stability

To state "the element encountered earlier in processing order is the one
retained", the aggregation is replayed on the flattened stream with each
item tagged by its position. Tags are carried but ignored by every
comparison and check, and erasing them provably recovers the original
run. -/

/-- A track tagged with its position in the flattened source stream. -/
abbrev TrackTag := Nat × TrackAddedAt

structure AggStateTag where
  excluded : Finset Ident
  included : List TrackTag
deriving DecidableEq

def insertDescTag (a : TrackTag) : List TrackTag → List TrackTag
  | [] => [a]
  | b :: l => if a.2.added_at < b.2.added_at then b :: insertDescTag a l else a :: b :: l

def sortDescTag : List TrackTag → List TrackTag
  | [] => []
  | x :: xs => insertDescTag x (sortDescTag xs)

def keepBoundedTag (output_len : Nat) (l : List TrackTag) : List TrackTag :=
  if output_len < l.length then l.dropLast else l

def aggAcceptTag (output_len : Nat) (s : AggStateTag) (t : TrackTag) : AggStateTag :=
  if t.2.ident ∈ s.excluded then s
  else
    { excluded := insert t.2.ident s.excluded
      included := keepBoundedTag output_len (sortDescTag (s.included ++ [t])) }

def aggStepTag (output_len : Nat) (s : AggStateTag) (t : TrackTag) :
    Except AggError AggStateTag :=
  if output_len ≤ s.included.length then
    match s.included.getLast? with
    | none => .error .indexError
    | some last =>
      if t.2.added_at ≤ last.2.added_at then .ok s
      else .ok (aggAcceptTag output_len s t)
  else .ok (aggAcceptTag output_len s t)

def processItemTag (output_len : Nat) (s : AggStateTag) (ti : Nat × RawItem) :
    Except AggError AggStateTag :=
  match ti.2.added_at with
  | none => .error .parseError
  | some d =>
    if (Track.ofRaw ti.2.track).track_id = none then .ok s
    else aggStepTag output_len s (ti.1, ⟨Track.ofRaw ti.2.track, d⟩)

def foldItemsTag (output_len : Nat) (s : AggStateTag) :
    List (Nat × RawItem) → Except AggError AggStateTag
  | [] => .ok s
  | ti :: rest =>
    match processItemTag output_len s ti with
    | .error e => .error e
    | .ok s' => foldItemsTag output_len s' rest

/-- The aggregation replayed on the position-tagged flattened stream. -/
def aggregate_source_records_tagged (source_playlists : List (List RawItem))
    (excluded_tracks : Finset Ident) (output_len : Nat) :
    Except AggError (List TrackTag) :=
  (foldItemsTag output_len ⟨excluded_tracks, []⟩ source_playlists.flatten.enum).map
    (·.included)

theorem processItemTag_some {K : Nat} {s : AggStateTag} {n : Nat} {it : RawItem} {d : Int}
    (hd : it.added_at = some d) :
    processItemTag K s (n, it) =
      if (Track.ofRaw it.track).track_id = none then .ok s
      else aggStepTag K s (n, ⟨Track.ofRaw it.track, d⟩) := by
  unfold processItemTag
  dsimp only
  rw [hd]

theorem insertDescTag_map (a : TrackTag) (l : List TrackTag) :
    (insertDescTag a l).map Prod.snd = insertDesc a.2 (l.map Prod.snd) := by
  induction l with
  | nil => rfl
  | cons b l ih =>
    show ((if a.2.added_at < b.2.added_at then b :: insertDescTag a l
        else a :: b :: l).map Prod.snd) =
      if a.2.added_at < b.2.added_at then b.2 :: insertDesc a.2 (l.map Prod.snd)
      else a.2 :: b.2 :: l.map Prod.snd
    by_cases h : a.2.added_at < b.2.added_at
    · rw [if_pos h, if_pos h, List.map_cons, ih]
    · rw [if_neg h, if_neg h]
      rfl

theorem sortDescTag_map (l : List TrackTag) :
    (sortDescTag l).map Prod.snd = sortDesc (l.map Prod.snd) := by
  induction l with
  | nil => rfl
  | cons x xs ih =>
    show (insertDescTag x (sortDescTag xs)).map Prod.snd =
      insertDesc x.2 (sortDesc (xs.map Prod.snd))
    rw [insertDescTag_map, ih]

theorem keepBoundedTag_map (K : Nat) (l : List TrackTag) :
    (keepBoundedTag K l).map Prod.snd = keepBounded K (l.map Prod.snd) := by
  unfold keepBoundedTag keepBounded
  by_cases h : K < l.length
  · rw [if_pos h, if_pos (by rwa [List.length_map])]
    exact List.map_dropLast _ _
  · rw [if_neg h, if_neg (by rwa [List.length_map])]

/-- The tagged state projects onto the original one: same exclusion set,
and erasing the tags of the kept list gives the original kept list. -/
def TagRel (sT : AggStateTag) (s : AggState) : Prop :=
  sT.excluded = s.excluded ∧ sT.included.map Prod.snd = s.included

theorem aggAcceptTag_rel {K : Nat} {sT : AggStateTag} {s : AggState} {n : Nat}
    {t : TrackAddedAt} (h : TagRel sT s) :
    TagRel (aggAcceptTag K sT (n, t)) (aggAccept K s t) := by
  obtain ⟨hex, hinc⟩ := h
  unfold aggAcceptTag aggAccept
  by_cases hmem : t.ident ∈ s.excluded
  · rw [if_pos (show (n, t).2.ident ∈ sT.excluded from hex ▸ hmem), if_pos hmem]
    exact ⟨hex, hinc⟩
  · rw [if_neg (show ¬((n, t).2.ident ∈ sT.excluded) from by rw [hex]; exact hmem),
      if_neg hmem]
    refine ⟨by dsimp only; rw [hex], ?_⟩
    show (keepBoundedTag K (sortDescTag (sT.included ++ [(n, t)]))).map Prod.snd =
      keepBounded K (sortDesc (s.included ++ [t]))
    rw [keepBoundedTag_map, sortDescTag_map, List.map_append, hinc]
    rfl

theorem aggStepTag_rel {K : Nat} {sT : AggStateTag} {s : AggState} {n : Nat}
    {t : TrackAddedAt} (h : TagRel sT s) :
    (∃ e, aggStepTag K sT (n, t) = .error e ∧ aggStep K s t = .error e) ∨
    (∃ sT' s', aggStepTag K sT (n, t) = .ok sT' ∧ aggStep K s t = .ok s' ∧
      TagRel sT' s') := by
  obtain ⟨hex, hinc⟩ := h
  have hlen : sT.included.length = s.included.length := by
    rw [← hinc, List.length_map]
  unfold aggStepTag aggStep
  by_cases hfull : K ≤ s.included.length
  · rw [if_pos (show K ≤ sT.included.length from hlen ▸ hfull), if_pos hfull]
    cases hlT : sT.included.getLast? with
    | none =>
      have hsl : s.included.getLast? = none := by
        rw [← hinc, List.getLast?_map, hlT]
        rfl
      rw [hsl]
      left
      exact ⟨.indexError, rfl, rfl⟩
    | some lastT =>
      have hsl : s.included.getLast? = some lastT.2 := by
        rw [← hinc, List.getLast?_map, hlT]
        rfl
      rw [hsl]
      dsimp only
      by_cases hle : t.added_at ≤ lastT.2.added_at
      · rw [if_pos (show (n, t).2.added_at ≤ lastT.2.added_at from hle), if_pos hle]
        right
        exact ⟨sT, s, rfl, rfl, hex, hinc⟩
      · rw [if_neg (show ¬((n, t).2.added_at ≤ lastT.2.added_at) from hle), if_neg hle]
        right
        exact ⟨_, _, rfl, rfl, aggAcceptTag_rel ⟨hex, hinc⟩⟩
  · rw [if_neg (show ¬(K ≤ sT.included.length) from by rw [hlen]; exact hfull),
      if_neg hfull]
    right
    exact ⟨_, _, rfl, rfl, aggAcceptTag_rel ⟨hex, hinc⟩⟩

theorem processItemTag_rel {K : Nat} {sT : AggStateTag} {s : AggState} {n : Nat}
    {it : RawItem} (h : TagRel sT s) :
    (∃ e, processItemTag K sT (n, it) = .error e ∧ processItem K s it = .error e) ∨
    (∃ sT' s', processItemTag K sT (n, it) = .ok sT' ∧ processItem K s it = .ok s' ∧
      TagRel sT' s') := by
  cases hd : it.added_at with
  | none =>
    left
    refine ⟨.parseError, ?_, ?_⟩
    · unfold processItemTag
      dsimp only
      rw [hd]
    · unfold processItem
      rw [hd]
  | some d =>
    rw [processItemTag_some hd, processItem_some hd]
    by_cases hid : (Track.ofRaw it.track).track_id = none
    · rw [if_pos hid, if_pos hid]
      right
      exact ⟨sT, s, rfl, rfl, h⟩
    · rw [if_neg hid, if_neg hid]
      exact aggStepTag_rel h

theorem foldItemsTag_rel {K : Nat} :
    ∀ (l : List RawItem) (n : Nat) (sT : AggStateTag) (s : AggState), TagRel sT s →
      (∃ e, foldItemsTag K sT (List.enumFrom n l) = .error e ∧
        foldItems K s l = .error e) ∨
      (∃ sT' s', foldItemsTag K sT (List.enumFrom n l) = .ok sT' ∧
        foldItems K s l = .ok s' ∧ TagRel sT' s') := by
  intro l
  induction l with
  | nil =>
    intro n sT s h
    right
    exact ⟨sT, s, rfl, rfl, h⟩
  | cons it rest ih =>
    intro n sT s h
    rcases @processItemTag_rel K sT s n it h with
      ⟨e, heT, heS⟩ | ⟨sT₁, s₁, hoT, hoS, hrel⟩
    · left
      refine ⟨e, ?_, ?_⟩
      · show (match processItemTag K sT (n, it) with
          | Except.error e => Except.error e
          | Except.ok s' => foldItemsTag K s' (List.enumFrom (n + 1) rest)) = .error e
        rw [heT]
      · show (match processItem K s it with
          | Except.error e => Except.error e
          | Except.ok s' => foldItems K s' rest) = .error e
        rw [heS]
    · have hT : foldItemsTag K sT (List.enumFrom n (it :: rest)) =
          foldItemsTag K sT₁ (List.enumFrom (n + 1) rest) := by
        show (match processItemTag K sT (n, it) with
          | Except.error e => Except.error e
          | Except.ok s' => foldItemsTag K s' (List.enumFrom (n + 1) rest)) =
          foldItemsTag K sT₁ (List.enumFrom (n + 1) rest)
        rw [hoT]
      rw [hT, foldItems_cons_step hoS]
      exact ih (n + 1) sT₁ s₁ hrel

/-- The tie-stability order: strictly more recent first, and among equal
timestamps the smaller (earlier-seen) tag first. -/
def stableDesc (l : List TrackTag) : Prop :=
  l.Pairwise (fun a b => b.2.added_at < a.2.added_at ∨
    (a.2.added_at = b.2.added_at ∧ a.1 < b.1))

def sortedDescTag (l : List TrackTag) : Prop :=
  l.Pairwise (fun a b => b.2.added_at ≤ a.2.added_at)

theorem stableDesc_sorted {l : List TrackTag} (h : stableDesc l) : sortedDescTag l := by
  refine h.imp ?_
  rintro a b (hlt | ⟨heq, _⟩)
  · exact le_of_lt hlt
  · exact le_of_eq heq.symm

theorem insertDescTag_perm (a : TrackTag) (l : List TrackTag) :
    (insertDescTag a l).Perm (a :: l) := by
  induction l with
  | nil => exact List.Perm.refl _
  | cons b l ih =>
    simp only [insertDescTag]
    split
    · exact (ih.cons b).trans (List.Perm.swap a b l)
    · exact List.Perm.refl _

theorem sortDescTag_perm (l : List TrackTag) : (sortDescTag l).Perm l := by
  induction l with
  | nil => exact List.Perm.refl _
  | cons x xs ih => exact (insertDescTag_perm x (sortDescTag xs)).trans (ih.cons x)

def insertLastTag (t : TrackTag) : List TrackTag → List TrackTag
  | [] => [t]
  | x :: xs => if x.2.added_at < t.2.added_at then t :: x :: xs else x :: insertLastTag t xs

theorem insertLastTag_perm (t : TrackTag) (l : List TrackTag) :
    (insertLastTag t l).Perm (t :: l) := by
  induction l with
  | nil => exact List.Perm.refl _
  | cons x xs ih =>
    simp only [insertLastTag]
    split
    · exact List.Perm.refl _
    · exact (ih.cons x).trans (List.Perm.swap t x xs)

theorem insertDescTag_of_ge {a : TrackTag} {l : List TrackTag}
    (h : ∀ y ∈ l, y.2.added_at ≤ a.2.added_at) : insertDescTag a l = a :: l := by
  cases l with
  | nil => rfl
  | cons b l =>
    simp only [insertDescTag, if_neg (not_lt.mpr (h b (List.mem_cons_self b l)))]

theorem sortDescTag_append_single {l : List TrackTag} (t : TrackTag)
    (h : sortedDescTag l) : sortDescTag (l ++ [t]) = insertLastTag t l := by
  induction l with
  | nil => rfl
  | cons x xs ih =>
    rcases List.pairwise_cons.mp h with ⟨hx, hxs⟩
    show insertDescTag x (sortDescTag (xs ++ [t])) = insertLastTag t (x :: xs)
    rw [ih hxs]
    by_cases hxt : x.2.added_at < t.2.added_at
    · rw [insertLastTag, if_pos hxt]
      cases xs with
      | nil =>
        show insertDescTag x [t] = [t, x]
        rw [insertDescTag, if_pos hxt]
        rfl
      | cons y ys =>
        have hy : y.2.added_at < t.2.added_at :=
          lt_of_le_of_lt (hx y (List.mem_cons_self y ys)) hxt
        rw [insertLastTag, if_pos hy, insertDescTag, if_pos hxt, insertDescTag_of_ge hx]
    · rw [insertLastTag, if_neg hxt]
      cases xs with
      | nil =>
        show insertDescTag x [t] = [x, t]
        rw [insertDescTag, if_neg hxt]
      | cons y ys =>
        rw [insertLastTag]
        by_cases hyt : y.2.added_at < t.2.added_at
        · rw [if_pos hyt]
          refine insertDescTag_of_ge ?_
          intro z hz
          rcases List.mem_cons.mp hz with rfl | hz
          · exact le_of_not_lt hxt
          · exact hx z hz
        · rw [if_neg hyt, insertDescTag,
            if_neg (not_lt.mpr (hx y (List.mem_cons_self y ys)))]

/-- Stably inserting a strictly later-seen element into a stable list
keeps the list stable: the new element lands after every element with a
greater-or-equal timestamp. -/
theorem stableDesc_insertLastTag {x : TrackTag} {l : List TrackTag}
    (hst : stableDesc l) (htag : ∀ y ∈ l, y.1 < x.1) :
    stableDesc (insertLastTag x l) := by
  induction l with
  | nil => exact List.pairwise_singleton _ _
  | cons b l ih =>
    rcases List.pairwise_cons.mp hst with ⟨hb, hl⟩
    show stableDesc
      (if b.2.added_at < x.2.added_at then x :: b :: l else b :: insertLastTag x l)
    by_cases hbx : b.2.added_at < x.2.added_at
    · rw [if_pos hbx]
      refine List.pairwise_cons.mpr ⟨?_, hst⟩
      intro y hy
      rcases List.mem_cons.mp hy with rfl | hy
      · exact Or.inl hbx
      · have hyb : y.2.added_at ≤ b.2.added_at := by
          rcases hb y hy with hlt | ⟨heq, _⟩
          · exact le_of_lt hlt
          · exact le_of_eq heq.symm
        exact Or.inl (lt_of_le_of_lt hyb hbx)
    · rw [if_neg hbx]
      refine List.pairwise_cons.mpr
        ⟨?_, ih hl (fun y hy => htag y (List.mem_cons.mpr (Or.inr hy)))⟩
      intro y hy
      rcases List.mem_cons.mp ((insertLastTag_perm x l).mem_iff.mp hy) with rfl | hy'
      · rcases lt_or_eq_of_le (not_lt.mp hbx) with hxb | hxb
        · exact Or.inl hxb
        · exact Or.inr ⟨hxb.symm, htag b (List.mem_cons_self b l)⟩
      · exact hb y hy'

theorem keepBoundedTag_subset {K : Nat} {l : List TrackTag} {x : TrackTag}
    (h : x ∈ keepBoundedTag K l) : x ∈ l := by
  revert h
  unfold keepBoundedTag
  split
  · exact fun h => (List.dropLast_sublist _).subset h
  · exact fun h => h

theorem stableDesc_keepBoundedTag {K : Nat} {l : List TrackTag}
    (h : stableDesc l) : stableDesc (keepBoundedTag K l) := by
  unfold keepBoundedTag
  split
  · exact h.sublist (List.dropLast_sublist _)
  · exact h

theorem aggAcceptTag_inv {K : Nat} {sT : AggStateTag} {n : Nat} {t : TrackAddedAt}
    (hst : stableDesc sT.included) (htag : ∀ x ∈ sT.included, x.1 < n) :
    stableDesc (aggAcceptTag K sT (n, t)).included ∧
      ∀ x ∈ (aggAcceptTag K sT (n, t)).included, x.1 < n + 1 := by
  unfold aggAcceptTag
  by_cases hmem : (n, t).2.ident ∈ sT.excluded
  · rw [if_pos hmem]
    exact ⟨hst, fun x hx => Nat.lt_succ_of_lt (htag x hx)⟩
  · rw [if_neg hmem]
    dsimp only
    have hsd : sortDescTag (sT.included ++ [(n, t)]) = insertLastTag (n, t) sT.included :=
      sortDescTag_append_single _ (stableDesc_sorted hst)
    rw [hsd]
    have hstable : stableDesc (insertLastTag (n, t) sT.included) :=
      stableDesc_insertLastTag hst (fun y hy => htag y hy)
    refine ⟨stableDesc_keepBoundedTag hstable, ?_⟩
    intro x hx
    have hx' : x ∈ insertLastTag (n, t) sT.included := keepBoundedTag_subset hx
    rcases List.mem_cons.mp ((insertLastTag_perm _ _).mem_iff.mp hx') with rfl | hx''
    · exact Nat.lt_succ_self n
    · exact Nat.lt_succ_of_lt (htag x hx'')

theorem processItemTag_inv {K : Nat} {sT sT' : AggStateTag} {n : Nat} {it : RawItem}
    (hp : processItemTag K sT (n, it) = .ok sT')
    (hst : stableDesc sT.included) (htag : ∀ x ∈ sT.included, x.1 < n) :
    stableDesc sT'.included ∧ ∀ x ∈ sT'.included, x.1 < n + 1 := by
  cases hd : it.added_at with
  | none =>
    rw [show processItemTag K sT (n, it) = .error .parseError from by
      unfold processItemTag; dsimp only; rw [hd]] at hp
    cases hp
  | some d =>
    rw [processItemTag_some hd] at hp
    by_cases hid : (Track.ofRaw it.track).track_id = none
    · rw [if_pos hid] at hp
      cases hp
      exact ⟨hst, fun x hx => Nat.lt_succ_of_lt (htag x hx)⟩
    · rw [if_neg hid] at hp
      unfold aggStepTag at hp
      by_cases hfull : K ≤ sT.included.length
      · rw [if_pos hfull] at hp
        cases hl : sT.included.getLast? with
        | none => rw [hl] at hp; cases hp
        | some lastT =>
          rw [hl] at hp
          dsimp only at hp
          by_cases hle :
              (n, (⟨Track.ofRaw it.track, d⟩ : TrackAddedAt)).2.added_at ≤ lastT.2.added_at
          · rw [if_pos hle] at hp
            cases hp
            exact ⟨hst, fun x hx => Nat.lt_succ_of_lt (htag x hx)⟩
          · rw [if_neg hle] at hp
            cases hp
            exact aggAcceptTag_inv hst htag
      · rw [if_neg hfull] at hp
        cases hp
        exact aggAcceptTag_inv hst htag

theorem foldItemsTag_cons_ok {K : Nat} {s s' : AggStateTag} {ti : Nat × RawItem}
    {rest : List (Nat × RawItem)}
    (h : foldItemsTag K s (ti :: rest) = .ok s') :
    ∃ s₁, processItemTag K s ti = .ok s₁ ∧ foldItemsTag K s₁ rest = .ok s' := by
  have h' : (match processItemTag K s ti with
      | Except.error e => Except.error e
      | Except.ok s₁ => foldItemsTag K s₁ rest) = Except.ok s' := h
  revert h'
  cases hp : processItemTag K s ti with
  | error e => intro h'; cases h'
  | ok s₁ => intro h'; exact ⟨s₁, rfl, h'⟩

theorem foldItemsTag_append (K : Nat) (s : AggStateTag) (l₁ l₂ : List (Nat × RawItem)) :
    foldItemsTag K s (l₁ ++ l₂) =
      match foldItemsTag K s l₁ with
      | .ok s' => foldItemsTag K s' l₂
      | .error e => .error e := by
  induction l₁ generalizing s with
  | nil => rfl
  | cons ti rest ih =>
    simp only [List.cons_append, foldItemsTag]
    cases processItemTag K s ti with
    | error e => rfl
    | ok s' => exact ih s'

/-- Enumerating a stream is enumerating a prefix and then the remainder,
with tags continuing where the prefix stopped. -/
theorem enumFrom_take_drop (k : Nat) : ∀ (n : Nat) (l : List RawItem),
    List.enumFrom n l = List.enumFrom n (l.take k) ++ List.enumFrom (n + k) (l.drop k) := by
  induction k with
  | zero => intro n l; simp
  | succ k ih =>
    intro n l
    cases l with
    | nil => simp
    | cons x xs =>
      show (n, x) :: List.enumFrom (n + 1) xs =
        ((n, x) :: List.enumFrom (n + 1) (xs.take k)) ++
          List.enumFrom (n + (k + 1)) (xs.drop k)
      rw [List.cons_append, ih (n + 1) xs, show n + 1 + k = n + (k + 1) from by omega]

theorem foldItemsTag_inv {K : Nat} :
    ∀ (l : List RawItem) (n : Nat) (sT sT' : AggStateTag),
      foldItemsTag K sT (List.enumFrom n l) = .ok sT' →
      stableDesc sT.included → (∀ x ∈ sT.included, x.1 < n) →
      stableDesc sT'.included ∧ ∀ x ∈ sT'.included, x.1 < n + l.length := by
  intro l
  induction l with
  | nil =>
    intro n sT sT' h hst htag
    cases h
    exact ⟨hst, fun x hx => by simpa using htag x hx⟩
  | cons it rest ih =>
    intro n sT sT' h hst htag
    obtain ⟨s₁, hp, hrest⟩ := foldItemsTag_cons_ok h
    obtain ⟨hst₁, htag₁⟩ := processItemTag_inv hp hst htag
    obtain ⟨hstf, htagf⟩ := ih (n + 1) s₁ sT' hrest hst₁ htag₁
    refine ⟨hstf, fun x hx => ?_⟩
    have hxf := htagf x hx
    simp only [List.length_cons]
    omega

/-- In a descending-sorted tagged list, the last element has the minimum
timestamp. -/
theorem sortedDescTag_getLast_le {l : List TrackTag} {last : TrackTag}
    (h : sortedDescTag l) (hlast : l.getLast? = some last) :
    ∀ y ∈ l, last.2.added_at ≤ y.2.added_at := by
  induction l with
  | nil => simp at hlast
  | cons x xs ih =>
    rcases List.pairwise_cons.mp h with ⟨hx, hxs⟩
    cases xs with
    | nil =>
      have hxl : x = last := by simpa using hlast
      subst hxl
      intro y hy
      have hyx : y = x := by simpa using hy
      subst hyx
      exact le_refl _
    | cons z zs =>
      have hlast' : (z :: zs).getLast? = some last := by
        rw [← hlast, List.getLast?_cons_cons]
      intro y hy
      rcases List.mem_cons.mp hy with rfl | hy
      · exact le_trans (ih hxs hlast' z (List.mem_cons_self z zs))
          (hx z (List.mem_cons_self z zs))
      · exact ih hxs hlast' y hy

/-- A successful tagged step either leaves the state unchanged, or
accepts the track: then the new kept list is the bounded stable re-sort,
and — when the kept list was full — the track is strictly more recent
than the current last (minimum) element, because it passed the
short-circuit. -/
theorem processItemTag_cases {K : Nat} {s s₁ : AggStateTag} {n : Nat} {it : RawItem}
    (hp : processItemTag K s (n, it) = .ok s₁) :
    s₁ = s ∨
    ∃ d, it.added_at = some d ∧
      (∀ last, s.included.getLast? = some last → K ≤ s.included.length →
        last.2.added_at < d) ∧
      s₁ = ⟨insert (⟨Track.ofRaw it.track, d⟩ : TrackAddedAt).ident s.excluded,
        keepBoundedTag K
          (sortDescTag (s.included ++ [(n, ⟨Track.ofRaw it.track, d⟩)]))⟩ := by
  cases hd : it.added_at with
  | none =>
    rw [show processItemTag K s (n, it) = .error .parseError from by
      unfold processItemTag; dsimp only; rw [hd]] at hp
    cases hp
  | some d =>
    rw [processItemTag_some hd] at hp
    by_cases hid : (Track.ofRaw it.track).track_id = none
    · rw [if_pos hid] at hp
      cases hp
      exact Or.inl rfl
    · rw [if_neg hid] at hp
      unfold aggStepTag at hp
      by_cases hfull : K ≤ s.included.length
      · rw [if_pos hfull] at hp
        cases hl : s.included.getLast? with
        | none => rw [hl] at hp; cases hp
        | some last =>
          rw [hl] at hp
          dsimp only at hp
          by_cases hle :
              (n, (⟨Track.ofRaw it.track, d⟩ : TrackAddedAt)).2.added_at ≤ last.2.added_at
          · rw [if_pos hle] at hp
            cases hp
            exact Or.inl rfl
          · rw [if_neg hle] at hp
            cases hp
            by_cases hmem :
                (n, (⟨Track.ofRaw it.track, d⟩ : TrackAddedAt)).2.ident ∈ s.excluded
            · left
              unfold aggAcceptTag
              rw [if_pos hmem]
            · right
              refine ⟨d, rfl, ?_, ?_⟩
              · intro last' hl' _
                cases hl'
                exact not_le.mp hle
              · unfold aggAcceptTag
                rw [if_neg hmem]
      · rw [if_neg hfull] at hp
        cases hp
        by_cases hmem :
            (n, (⟨Track.ofRaw it.track, d⟩ : TrackAddedAt)).2.ident ∈ s.excluded
        · left
          unfold aggAcceptTag
          rw [if_pos hmem]
        · right
          refine ⟨d, rfl, fun last' _ hfull' => absurd hfull' hfull, ?_⟩
          unfold aggAcceptTag
          rw [if_neg hmem]

/-- Once the kept list is full, its minimum timestamp never decreases:
every element kept at the end of the run either was already kept, or is
strictly more recent than the last (minimum) element the full list had. -/
theorem foldItemsTag_newcomers {K : Nat} :
    ∀ (l : List RawItem) (n : Nat) (s s' : AggStateTag) (m : TrackTag),
      foldItemsTag K s (List.enumFrom n l) = .ok s' →
      stableDesc s.included →
      (∀ x ∈ s.included, x.1 < n) →
      K ≤ s.included.length →
      s.included.getLast? = some m →
      ∀ b ∈ s'.included, b ∈ s.included ∨ m.2.added_at < b.2.added_at := by
  intro l
  induction l with
  | nil =>
    intro n s s' m h _ _ _ _ b hb
    cases h
    exact Or.inl hb
  | cons it rest ih =>
    intro n s s' m h hst htag hfull hlast b hb
    obtain ⟨s₁, hp, hrest⟩ := foldItemsTag_cons_ok h
    obtain ⟨hst₁, htag₁⟩ := processItemTag_inv hp hst htag
    rcases processItemTag_cases hp with hskip | ⟨d, hd, hgt, hs₁⟩
    · subst hskip
      exact ih (n + 1) s₁ s' m hrest hst₁ htag₁ hfull hlast b hb
    · have hm_lt_d : m.2.added_at < d := hgt m hlast hfull
      have hsorted : sortedDescTag s.included := stableDesc_sorted hst
      have hM : sortDescTag (s.included ++ [(n, ⟨Track.ofRaw it.track, d⟩)]) =
          insertLastTag (n, ⟨Track.ofRaw it.track, d⟩) s.included :=
        sortDescTag_append_single _ hsorted
      have hlenM : (insertLastTag (n, (⟨Track.ofRaw it.track, d⟩ : TrackAddedAt))
          s.included).length = s.included.length + 1 := by
        rw [(insertLastTag_perm _ _).length_eq, List.length_cons]
      have hinc₁ : s₁.included =
          (insertLastTag (n, (⟨Track.ofRaw it.track, d⟩ : TrackAddedAt))
            s.included).dropLast := by
        rw [hs₁]
        dsimp only
        rw [hM]
        unfold keepBoundedTag
        rw [if_pos (by rw [hlenM]; omega)]
      have hlen₁ : s₁.included.length = s.included.length := by
        rw [hinc₁, List.length_dropLast, hlenM]
        omega
      have hfull₁ : K ≤ s₁.included.length := by
        rw [hlen₁]
        exact hfull
      have hne : s.included ≠ [] := by
        intro h0
        rw [h0] at hlast
        cases hlast
      have hne₁ : s₁.included ≠ [] := by
        intro h0
        have := hlen₁
        rw [h0] at this
        exact hne (List.length_eq_zero.mp this.symm)
      obtain ⟨m₁, hm₁⟩ : ∃ m₁, s₁.included.getLast? = some m₁ := by
        cases hI : s₁.included with
        | nil => exact absurd hI hne₁
        | cons a as => exact ⟨(a :: as).getLast (by simp), List.getLast?_eq_getLast _ _⟩
      have hm₁mem : m₁ ∈ s₁.included := List.mem_of_getLast?_eq_some hm₁
      have hm₁src : m₁ ∈ s.included ∨
          m₁ = (n, (⟨Track.ofRaw it.track, d⟩ : TrackAddedAt)) := by
        have hmM : m₁ ∈ insertLastTag (n, (⟨Track.ofRaw it.track, d⟩ : TrackAddedAt))
            s.included := by
          rw [hinc₁] at hm₁mem
          exact (List.dropLast_sublist _).subset hm₁mem
        rcases List.mem_cons.mp ((insertLastTag_perm _ _).mem_iff.mp hmM) with h1 | h1
        · exact Or.inr h1
        · exact Or.inl h1
      have hm_le_m₁ : m.2.added_at ≤ m₁.2.added_at := by
        rcases hm₁src with h1 | rfl
        · exact sortedDescTag_getLast_le hsorted hlast m₁ h1
        · exact le_of_lt hm_lt_d
      rcases ih (n + 1) s₁ s' m₁ hrest hst₁ htag₁ hfull₁ hm₁ b hb with h1 | h1
      · have hbM : b ∈ insertLastTag (n, (⟨Track.ofRaw it.track, d⟩ : TrackAddedAt))
            s.included := by
          rw [hinc₁] at h1
          exact (List.dropLast_sublist _).subset h1
        rcases List.mem_cons.mp ((insertLastTag_perm _ _).mem_iff.mp hbM) with rfl | h2
        · exact Or.inr hm_lt_d
        · exact Or.inl h2
      · exact Or.inr (lt_of_le_of_lt hm_le_m₁ h1)

/-- Retention: an element that was in the kept list at some point and is
gone at the end was outlived only by strictly more recent elements or by
equal-timestamp elements seen earlier — never by an equal-timestamp
element seen later. -/
theorem foldItemsTag_retention {K : Nat} :
    ∀ (l : List RawItem) (n : Nat) (s s' : AggStateTag),
      foldItemsTag K s (List.enumFrom n l) = .ok s' →
      stableDesc s.included →
      (∀ x ∈ s.included, x.1 < n) →
      ∀ a ∈ s.included, a ∉ s'.included →
        ∀ b ∈ s'.included, b.2.added_at = a.2.added_at → b.1 < a.1 := by
  intro l
  induction l with
  | nil =>
    intro n s s' h _ _ a ha hnot b _ _
    cases h
    exact absurd ha hnot
  | cons it rest ih =>
    intro n s s' h hst htag a ha hnot b hb heq
    obtain ⟨s₁, hp, hrest⟩ := foldItemsTag_cons_ok h
    obtain ⟨hst₁, htag₁⟩ := processItemTag_inv hp hst htag
    by_cases ha₁ : a ∈ s₁.included
    · exact ih (n + 1) s₁ s' hrest hst₁ htag₁ a ha₁ hnot b hb heq
    · rcases processItemTag_cases hp with hskip | ⟨d, hd, _, hs₁⟩
      · subst hskip
        exact absurd ha ha₁
      · have hsorted : sortedDescTag s.included := stableDesc_sorted hst
        have hM : sortDescTag (s.included ++ [(n, ⟨Track.ofRaw it.track, d⟩)]) =
            insertLastTag (n, ⟨Track.ofRaw it.track, d⟩) s.included :=
          sortDescTag_append_single _ hsorted
        have haM : a ∈ insertLastTag (n, (⟨Track.ofRaw it.track, d⟩ : TrackAddedAt))
            s.included :=
          (insertLastTag_perm _ _).mem_iff.mpr (List.mem_cons.mpr (Or.inr ha))
        by_cases hev : K < (insertLastTag (n, (⟨Track.ofRaw it.track, d⟩ : TrackAddedAt))
            s.included).length
        · have hinc₁ : s₁.included =
              (insertLastTag (n, (⟨Track.ofRaw it.track, d⟩ : TrackAddedAt))
                s.included).dropLast := by
            rw [hs₁]
            dsimp only
            rw [hM]
            unfold keepBoundedTag
            rw [if_pos hev]
          have hMne : insertLastTag (n, (⟨Track.ofRaw it.track, d⟩ : TrackAddedAt))
              s.included ≠ [] := by
            intro h0
            rw [h0] at haM
            cases haM
          have hdecomp :
              (insertLastTag (n, (⟨Track.ofRaw it.track, d⟩ : TrackAddedAt))
                s.included).dropLast ++
                [(insertLastTag (n, (⟨Track.ofRaw it.track, d⟩ : TrackAddedAt))
                  s.included).getLast hMne] =
              insertLastTag (n, (⟨Track.ofRaw it.track, d⟩ : TrackAddedAt)) s.included :=
            List.dropLast_append_getLast hMne
          have halast : a = (insertLastTag (n, (⟨Track.ofRaw it.track, d⟩ : TrackAddedAt))
              s.included).getLast hMne := by
            rcases List.mem_append.mp (by rw [hdecomp]; exact haM) with h1 | h1
            · exact absurd (by rw [hinc₁]; exact h1) ha₁
            · simpa using h1
          have hstM : stableDesc (insertLastTag
              (n, (⟨Track.ofRaw it.track, d⟩ : TrackAddedAt)) s.included) :=
            stableDesc_insertLastTag hst (fun y hy => htag y hy)
          have hdom : ∀ y ∈ (insertLastTag
              (n, (⟨Track.ofRaw it.track, d⟩ : TrackAddedAt)) s.included).dropLast,
              a.2.added_at < y.2.added_at ∨
                (y.2.added_at = a.2.added_at ∧ y.1 < a.1) := by
            intro y hy
            have hstM' : stableDesc ((insertLastTag
                (n, (⟨Track.ofRaw it.track, d⟩ : TrackAddedAt)) s.included).dropLast ++
                [(insertLastTag (n, (⟨Track.ofRaw it.track, d⟩ : TrackAddedAt))
                  s.included).getLast hMne]) := by
              rw [hdecomp]
              exact hstM
            have hrel := (List.pairwise_append.mp hstM').2.2 y hy
              _ (List.mem_singleton_self _)
            rw [← halast] at hrel
            exact hrel
          have hfull₁ : K ≤ s₁.included.length := by
            have hlenM : (insertLastTag (n, (⟨Track.ofRaw it.track, d⟩ : TrackAddedAt))
                s.included).length = s.included.length + 1 := by
              rw [(insertLastTag_perm _ _).length_eq, List.length_cons]
            rw [hinc₁, List.length_dropLast, hlenM]
            rw [hlenM] at hev
            omega
          have hne₁ : s₁.included ≠ [] := by
            intro h0
            have hlen0 : s₁.included.length = 0 := by rw [h0]; rfl
            have hlenM : (insertLastTag (n, (⟨Track.ofRaw it.track, d⟩ : TrackAddedAt))
                s.included).length = s.included.length + 1 := by
              rw [(insertLastTag_perm _ _).length_eq, List.length_cons]
            rw [hinc₁, List.length_dropLast, hlenM] at hlen0
            have hne : s.included ≠ [] := by
              intro hz
              rw [hz] at ha
              cases ha
            exact hne (List.length_eq_zero.mp hlen0)
          obtain ⟨m₁, hm₁⟩ : ∃ m₁, s₁.included.getLast? = some m₁ := by
            cases hI : s₁.included with
            | nil => exact absurd hI hne₁
            | cons c cs => exact ⟨(c :: cs).getLast (by simp), List.getLast?_eq_getLast _ _⟩
          have hm₁dom : a.2.added_at ≤ m₁.2.added_at := by
            have hm₁mem : m₁ ∈ s₁.included := List.mem_of_getLast?_eq_some hm₁
            rcases hdom m₁ (by rw [← hinc₁]; exact hm₁mem) with h1 | ⟨h1, _⟩
            · exact le_of_lt h1
            · exact le_of_eq h1.symm
          rcases foldItemsTag_newcomers rest (n + 1) s₁ s' m₁ hrest hst₁ htag₁ hfull₁ hm₁
              b hb with h1 | h1
          · rcases hdom b (by rw [← hinc₁]; exact h1) with h2 | ⟨_, h3⟩
            · exact absurd heq (ne_of_gt h2)
            · exact h3
          · exact absurd heq (ne_of_gt (lt_of_le_of_lt hm₁dom h1))
        · exfalso
          apply ha₁
          rw [hs₁]
          dsimp only
          rw [hM]
          unfold keepBoundedTag
          rw [if_neg hev]
          exact haM

/-- C6: tagging each item of the flattened source stream with its
position, the tagged run computes exactly the original run (erasing tags
gives `aggregate_source_records`), and: (1) the output is ordered with
strictly more recent tracks first and, among tracks with equal
`added_at`, the earlier-seen first — the repeated re-sort never reorders
equal-`added_at` elements; (2) retention: a track that was in the kept
list after some prefix of the stream and is missing from the final
output was never displaced by an equal-`added_at` track seen later —
every equal-timestamp survivor was seen earlier; (3) once the kept list
is full, every final-output track either was already kept at that point
(hence seen before the prefix ended) or is strictly more recent than the
then-minimum, so a track tied with the minimum never displaces it. When
capacity admits only one of two equal-`added_at` records, the one
encountered earlier in processing order is the one retained. -/
theorem C6_tie_stability (pls : List (List RawItem)) (seed : Finset Ident) (K : Nat)
    (out : List TrackTag)
    (h : aggregate_source_records_tagged pls seed K = .ok out) :
    (aggregate_source_records pls seed K = .ok (out.map Prod.snd)) ∧
    (out.Pairwise (fun a b => b.2.added_at < a.2.added_at ∨
      (a.2.added_at = b.2.added_at ∧ a.1 < b.1))) ∧
    (∀ (k : Nat) (s_mid : AggStateTag),
      foldItemsTag K ⟨seed, []⟩ (List.enumFrom 0 (pls.flatten.take k)) = .ok s_mid →
      ∀ a ∈ s_mid.included, a ∉ out →
        ∀ b ∈ out, b.2.added_at = a.2.added_at → b.1 < a.1) ∧
    (∀ (k : Nat) (s_mid : AggStateTag),
      foldItemsTag K ⟨seed, []⟩ (List.enumFrom 0 (pls.flatten.take k)) = .ok s_mid →
      K ≤ s_mid.included.length →
      ∀ last, s_mid.included.getLast? = some last →
        ∀ b ∈ out, (b ∈ s_mid.included ∧ b.1 < k) ∨
          last.2.added_at < b.2.added_at) := by
  unfold aggregate_source_records_tagged at h
  cases hfT : foldItemsTag K ⟨seed, []⟩ pls.flatten.enum with
  | error e =>
    rw [hfT] at h
    cases h
  | ok sT' =>
    rw [hfT] at h
    have hout : sT'.included = out := Except.ok.inj h
    have henum : List.enumFrom 0 pls.flatten = pls.flatten.enum := rfl
    have hsplit : ∀ (k : Nat) (s_mid : AggStateTag),
        foldItemsTag K ⟨seed, []⟩ (List.enumFrom 0 (pls.flatten.take k)) = .ok s_mid →
        foldItemsTag K s_mid (List.enumFrom k (pls.flatten.drop k)) = .ok sT' ∧
          stableDesc s_mid.included ∧ (∀ x ∈ s_mid.included, x.1 < k) := by
      intro k s_mid hmid
      have hEq : pls.flatten.enum =
          List.enumFrom 0 (pls.flatten.take k) ++
            List.enumFrom k (pls.flatten.drop k) := by
        have hbase := enumFrom_take_drop k 0 pls.flatten
        rw [← henum, hbase, Nat.zero_add]
      have hfT' := hfT
      rw [hEq, foldItemsTag_append, hmid] at hfT'
      obtain ⟨hstm, htagm⟩ := foldItemsTag_inv (pls.flatten.take k) 0 ⟨seed, []⟩ s_mid
        hmid List.Pairwise.nil (fun x hx => absurd hx (List.not_mem_nil x))
      refine ⟨hfT', hstm, ?_⟩
      intro x hx
      have hx1 := htagm x hx
      have hx2 : (pls.flatten.take k).length ≤ k := by
        simp [List.length_take]
      omega
    rcases @foldItemsTag_rel K pls.flatten 0 ⟨seed, []⟩ ⟨seed, []⟩ ⟨rfl, rfl⟩ with
      ⟨e, heT, _⟩ | ⟨sT'', s', hoT, hoS, hex, hinc⟩
    · rw [henum, hfT] at heT
      cases heT
    · rw [henum, hfT] at hoT
      have hsT : sT' = sT'' := Except.ok.inj hoT
      subst hsT
      refine ⟨?_, ?_, ?_, ?_⟩
      · unfold aggregate_source_records
        rw [foldPlaylists_eq_flatten, hoS]
        show Except.ok s'.included = Except.ok (out.map Prod.snd)
        rw [← hinc, hout]
      · rw [← hout]
        exact (foldItemsTag_inv pls.flatten 0 ⟨seed, []⟩ sT'
          (henum ▸ hfT) List.Pairwise.nil (fun x hx => absurd hx (List.not_mem_nil x))).1
      · intro k s_mid hmid a ha hnot b hb heq
        obtain ⟨hrest, hstm, htagm⟩ := hsplit k s_mid hmid
        exact foldItemsTag_retention (pls.flatten.drop k) k s_mid sT' hrest hstm htagm
          a ha (by rw [hout]; exact hnot) b (by rw [hout]; exact hb) heq
      · intro k s_mid hmid hfull last hlast b hb
        obtain ⟨hrest, hstm, htagm⟩ := hsplit k s_mid hmid
        rcases foldItemsTag_newcomers (pls.flatten.drop k) k s_mid sT' last hrest hstm
            htagm hfull hlast b (by rw [hout]; exact hb) with h1 | h1
        · exact Or.inl ⟨h1, htagm b h1⟩
        · exact Or.inr h1

theorem C6_tie_stability_witness :
    (aggregate_source_records [[itemOf "iA" "A" "a" 7, itemOf "iB" "B" "b" 7,
        itemOf "iC" "C" "c" 9]] ∅ 2 =
      .ok (([((2 : Nat), (⟨⟨some "iC", "C", ["c"].toFinset⟩, 9⟩ : TrackAddedAt)),
             ((0 : Nat), (⟨⟨some "iA", "A", ["a"].toFinset⟩, 7⟩ : TrackAddedAt))]).map
        Prod.snd)) ∧
    (([((2 : Nat), (⟨⟨some "iC", "C", ["c"].toFinset⟩, 9⟩ : TrackAddedAt)),
       ((0 : Nat), (⟨⟨some "iA", "A", ["a"].toFinset⟩, 7⟩ : TrackAddedAt))]).Pairwise
      (fun a b => b.2.added_at < a.2.added_at ∨
        (a.2.added_at = b.2.added_at ∧ a.1 < b.1))) ∧
    ((1 : Nat), (⟨⟨some "iB", "B", ["b"].toFinset⟩, 7⟩ : TrackAddedAt)).1 >
      ((0 : Nat), (⟨⟨some "iA", "A", ["a"].toFinset⟩, 7⟩ : TrackAddedAt)).1 := by
  have happ := C6_tie_stability
    [[itemOf "iA" "A" "a" 7, itemOf "iB" "B" "b" 7, itemOf "iC" "C" "c" 9]] ∅ 2
    [((2 : Nat), (⟨⟨some "iC", "C", ["c"].toFinset⟩, 9⟩ : TrackAddedAt)),
     ((0 : Nat), (⟨⟨some "iA", "A", ["a"].toFinset⟩, 7⟩ : TrackAddedAt))] rfl
  refine ⟨happ.1, happ.2.1, ?_⟩
  exact happ.2.2.1 2
    ⟨insert ("B", ["b"].toFinset) (insert ("A", ["a"].toFinset) ∅),
      [((0 : Nat), (⟨⟨some "iA", "A", ["a"].toFinset⟩, 7⟩ : TrackAddedAt)),
       ((1 : Nat), (⟨⟨some "iB", "B", ["b"].toFinset⟩, 7⟩ : TrackAddedAt))]⟩ rfl
    ((1 : Nat), (⟨⟨some "iB", "B", ["b"].toFinset⟩, 7⟩ : TrackAddedAt))
    (List.Mem.tail _ (List.Mem.head _))
    (by simp)
    ((0 : Nat), (⟨⟨some "iA", "A", ["a"].toFinset⟩, 7⟩ : TrackAddedAt))
    (List.Mem.tail _ (List.Mem.head _))
    rfl

end Scoutlist
